import Mathlib

/-!
# Verification of the data-agent orchestration core

Shallow embedding of the components of `lib/agents/data_agent`:
the SQL policy checker (`safety/policy.py`), the Merkle-chained audit log
(`audit/merkle_log.py`), the execution actor (`actor/actor.py`,
`actor/observation.py`), the schema fingerprinter
(`memory/schema_fingerprint.py`), the recipe store (`memory/recipe_store.py`)
and the plan builder (`planner/plan_builder.py`).

Python strings are modelled as `String` / `List Char` (code points, so
comparison and case mapping agree with Python on the ASCII inputs involved),
floats used as costs and similarity scores as `ℚ`, SHA-256 as an abstract
function whose collision resistance is an injectivity hypothesis, and
`datetime`/`uuid` values as explicit inputs.  Fallible code returns `Except`
or `Option`.
-/

set_option maxRecDepth 4000

deriving instance DecidableEq for Except

/-! ## SQL policy checker (`safety/policy.py`, class `SQLPolicyChecker`) -/

/-- Result from policy validation (`PolicyResult`).  The `metadata` dict of
`check_query` holds only the query length, kept here as `queryLength`. -/
structure PolicyResult where
  allowed : Bool
  violations : List String
  severity : String
  queryLength : Nat
deriving DecidableEq, Repr

/-- `\w` of Python's `re` on the ASCII range: letters, digits, underscore. -/
def isWordChar (c : Char) : Bool :=
  c.isAlpha || c.isDigit || c = '_'

/-- Does `kw` occur in `s` starting at index `i` with `\b` boundaries
on both sides (the `re.search(rf'\b{kw}\b', s)` test)? -/
def wordMatchAt (kw s : List Char) (i : Nat) : Bool :=
  ((s.drop i).take kw.length == kw)
    && (i == 0 || !(match s[i-1]? with | some c => isWordChar c | none => false))
    && (match s[i + kw.length]? with | some c => !isWordChar c | none => true)

/-- `re.search(rf'\b{kw}\b', s)` as a Boolean: some starting index matches. -/
def containsWord (kw s : List Char) : Bool :=
  (List.range (s.length + 1)).any (fun i => wordMatchAt kw s i)

/-- Python `pattern in text` (substring containment). -/
def containsSub (pat s : List Char) : Bool :=
  (List.range (s.length + 1)).any (fun i => (s.drop i).take pat.length == pat)

/-- Whitespace stripped by Python `str.strip()`. -/
def isPyWs (c : Char) : Bool :=
  c = ' ' || c = '\t' || c = '\n' || c = '\r' || c = '\x0b' || c = '\x0c'

/-- Python `str.strip()`. -/
def pyStrip (s : List Char) : List Char :=
  ((s.dropWhile isPyWs).reverse.dropWhile isPyWs).reverse

/-- Python `str.rstrip(';')`. -/
def rstripSemi (s : List Char) : List Char :=
  (s.reverse.dropWhile (fun c => c = ';')).reverse

/-- `SQLPolicyChecker.DDL_KEYWORDS`. -/
def ddlKeywords : List String :=
  ["CREATE", "DROP", "ALTER", "TRUNCATE", "RENAME"]

/-- `SQLPolicyChecker.DML_KEYWORDS`. -/
def dmlKeywords : List String :=
  ["INSERT", "UPDATE", "DELETE", "MERGE"]

/-- `SQLPolicyChecker.DANGEROUS_KEYWORDS`. -/
def dangerousKeywords : List String :=
  ["GRANT", "REVOKE", "EXEC", "EXECUTE", "CALL", "LOAD", "COPY", "IMPORT", "EXPORT"]

/-- Severity ladder used by `check_query`'s
`max(severity, "high", key=lambda x: [...].index(x))`. -/
def sevRank (s : String) : Nat :=
  (["none", "low", "medium", "high", "critical"].indexOf s)

/-- Python `max(a, b, key=sevRank)` (ties keep the first argument). -/
def sevMax (a b : String) : String :=
  if sevRank a < sevRank b then b else a

/-- `SQLPolicyChecker.check_query`.  The query is uppercased and each keyword
set is matched with word boundaries; any match sets severity `critical`.
An inline `--` not at the (stripped) start, or a `';'` surviving
`query.strip().rstrip(';')`, adds a `high`-severity injection violation.
Keyword iteration order inside each set is fixed here (Python iterates a
`set`, whose order is unspecified; only membership matters downstream). -/
def checkQuery (query : String) : PolicyResult :=
  let qUp : List Char := query.data.map Char.toUpper
  let ddlViol := (ddlKeywords.filter (fun k => containsWord k.data qUp)).map
    (fun k => "DDL operation blocked: " ++ k)
  let dmlViol := (dmlKeywords.filter (fun k => containsWord k.data qUp)).map
    (fun k => "DML operation blocked: " ++ k)
  let dangViol := (dangerousKeywords.filter (fun k => containsWord k.data qUp)).map
    (fun k => "Dangerous operation blocked: " ++ k)
  let kwViol := ddlViol ++ dmlViol ++ dangViol
  let sev1 : String := if kwViol.isEmpty then "none" else "critical"
  let commentFlag : Bool :=
    containsSub ['-', '-'] query.data && !(['-', '-'].isPrefixOf (pyStrip query.data))
  let viol2 := if commentFlag then ["SQL comment detected (potential injection)"] else []
  let sev2 := if commentFlag then sevMax sev1 "high" else sev1
  let multiFlag : Bool := (rstripSemi (pyStrip query.data)).contains ';'
  let viol3 := if multiFlag then ["Multiple statements detected (potential injection)"] else []
  let sev3 := if multiFlag then sevMax sev2 "high" else sev2
  let violations := kwViol ++ viol2 ++ viol3
  { allowed := violations.isEmpty
    violations := violations
    severity := sev3
    queryLength := query.length }

/-! ## Merkle-chained audit log (`audit/merkle_log.py`)

`D` is the type of the `data` payload and `H` the type of hash values.
`LogEntry.compute_hash` serializes the five fields other than `entry_hash`
as canonical JSON (sorted keys, no whitespace) and applies SHA-256; since
that serialization is injective on the field record, hashing is modelled as
one abstract function `h` on the field tuple, with SHA-256's collision
resistance available as the hypothesis `Function.Injective h`. -/

/-- The fields of a `LogEntry` that `compute_hash` covers:
`(entry_id, timestamp, event_type, data, parent_hash)`. -/
def EntryData (D H : Type) : Type :=
  String × String × String × D × H

/-- Single entry in the Merkle-chained audit log (`LogEntry`).  In the
source `entry_hash` is `Optional` and set right after construction; here
entries are built with their hash already computed. -/
structure LogEntry (D H : Type) where
  entry_id : String
  timestamp : String
  event_type : String
  data : D
  parent_hash : H
  entry_hash : H
deriving DecidableEq, Repr

/-- `LogEntry.compute_hash`: hash of the entry's fields other than
`entry_hash` (via their canonical serialization). -/
def computeHash {D H : Type} (h : EntryData D H → H) (e : LogEntry D H) : H :=
  h (e.entry_id, e.timestamp, e.event_type, e.data, e.parent_hash)

/-- In-memory state of a `MerkleLog`: the entries written to the JSONL file
in order, plus the cached `_last_hash` (`none` for a fresh/empty log). -/
structure MerkleLog (D H : Type) where
  entries : List (LogEntry D H)
  lastHash : Option H
deriving DecidableEq, Repr

/-- A fresh `MerkleLog` over a non-existent file. -/
def emptyLog (D H : Type) : MerkleLog D H :=
  { entries := [], lastHash := none }

/-- `MerkleLog.append`: parent is the cached last hash, or the genesis
constant for the first entry; the entry hash is computed over the fields and
the entry is written at the end of the file.  The `entry_id`, `event_type`
and `data` arguments and the `datetime.utcnow()` timestamp are bundled as
one input tuple. -/
def appendEntry {D H : Type} (h : EntryData D H → H) (genesis : H)
    (log : MerkleLog D H) (input : String × String × String × D) : MerkleLog D H :=
  let parent := log.lastHash.getD genesis
  let entry : LogEntry D H :=
    { entry_id := input.1
      timestamp := input.2.1
      event_type := input.2.2.1
      data := input.2.2.2
      parent_hash := parent
      entry_hash := h (input.1, input.2.1, input.2.2.1, input.2.2.2, parent) }
  { entries := log.entries ++ [entry], lastHash := some entry.entry_hash }

/-- The log obtained from a fresh `MerkleLog` by appending each input in
order. -/
def buildLog {D H : Type} (h : EntryData D H → H) (genesis : H)
    (inputs : List (String × String × String × D)) : MerkleLog D H :=
  inputs.foldl (appendEntry h genesis) (emptyLog D H)

/-- Verification failure, carrying the 1-based entry position that
`verify_chain` interpolates into its error message ("Chain break at entry
i (line i): ..." / "Hash mismatch at entry i (line i): ...").  The source
formats the position and truncated hashes into a string; the position is
what the reported reason names. -/
inductive VerifyError where
  | chainBreak (entryNumber : Nat)
  | hashMismatch (entryNumber : Nat)
deriving DecidableEq, Repr

/-- The entry position named by a verification error. -/
def VerifyError.entryNumber : VerifyError → Nat
  | .chainBreak n => n
  | .hashMismatch n => n

/-- The replay loop of `MerkleLog.verify_chain`: `expected` is the running
`expected_parent` and `idx` the 0-based index of the next entry. -/
def verifyFrom {D H : Type} [DecidableEq H] (h : EntryData D H → H)
    (expected : H) (idx : Nat) : List (LogEntry D H) → Option VerifyError
  | [] => none
  | e :: rest =>
    if e.parent_hash ≠ expected then some (.chainBreak (idx + 1))
    else if computeHash h e ≠ e.entry_hash then some (.hashMismatch (idx + 1))
    else verifyFrom h e.entry_hash (idx + 1) rest

/-- `MerkleLog.verify_chain` on the entries stored in the file: `none` means
`(True, None)`, `some err` the `(False, reason)` outcome. -/
def verifyChain {D H : Type} [DecidableEq H] (h : EntryData D H → H)
    (genesis : H) (entries : List (LogEntry D H)) : Option VerifyError :=
  verifyFrom h genesis 0 entries

/-- `e'` agrees with `e` except on exactly one of the six stored fields,
where it differs (the mutations claim C2 quantifies over). -/
def DiffersInOneField {D H : Type} (e e' : LogEntry D H) : Prop :=
  (e'.entry_id ≠ e.entry_id ∧ e'.timestamp = e.timestamp ∧ e'.event_type = e.event_type ∧
    e'.data = e.data ∧ e'.parent_hash = e.parent_hash ∧ e'.entry_hash = e.entry_hash) ∨
  (e'.entry_id = e.entry_id ∧ e'.timestamp ≠ e.timestamp ∧ e'.event_type = e.event_type ∧
    e'.data = e.data ∧ e'.parent_hash = e.parent_hash ∧ e'.entry_hash = e.entry_hash) ∨
  (e'.entry_id = e.entry_id ∧ e'.timestamp = e.timestamp ∧ e'.event_type ≠ e.event_type ∧
    e'.data = e.data ∧ e'.parent_hash = e.parent_hash ∧ e'.entry_hash = e.entry_hash) ∨
  (e'.entry_id = e.entry_id ∧ e'.timestamp = e.timestamp ∧ e'.event_type = e.event_type ∧
    e'.data ≠ e.data ∧ e'.parent_hash = e.parent_hash ∧ e'.entry_hash = e.entry_hash) ∨
  (e'.entry_id = e.entry_id ∧ e'.timestamp = e.timestamp ∧ e'.event_type = e.event_type ∧
    e'.data = e.data ∧ e'.parent_hash ≠ e.parent_hash ∧ e'.entry_hash = e.entry_hash) ∨
  (e'.entry_id = e.entry_id ∧ e'.timestamp = e.timestamp ∧ e'.event_type = e.event_type ∧
    e'.data = e.data ∧ e'.parent_hash = e.parent_hash ∧ e'.entry_hash ≠ e.entry_hash)

instance {D H : Type} [DecidableEq D] [DecidableEq H] (e e' : LogEntry D H) :
    Decidable (DiffersInOneField e e') := by
  unfold DiffersInOneField
  infer_instance

/-- A concrete hash-value type used to instantiate the abstract hash in
witnesses: `node` is a free (hence injective) constructor over the hashed
fields. -/
inductive HashVal (D : Type) where
  | genesis
  | node (entry_id timestamp event_type : String) (data : D) (parent : HashVal D)
deriving DecidableEq, Repr

/-- The free hash function on `HashVal`. -/
def freeHash {D : Type} (t : EntryData D (HashVal D)) : HashVal D :=
  HashVal.node t.1 t.2.1 t.2.2.1 t.2.2.2.1 t.2.2.2.2

/-! ## Plan data model (`planner/plan_builder.py`, `planner/intent_parser.py`) -/

/-- `ToolType`: available tool types for plan steps. -/
inductive ToolType where
  | sql_runner
  | df_operations
  | plotter
  | profiler
deriving DecidableEq, Repr

/-- `ToolType.value` (the enum's string value). -/
def ToolType.value : ToolType → String
  | .sql_runner => "sql_runner"
  | .df_operations => "df_operations"
  | .plotter => "plotter"
  | .profiler => "profiler"

/-- `PlanStep`: single step in an execution plan.  Costs are exact
rationals (the Python floats `2.0`, `1.0`, `1.5`, `0.5` are all exactly
representable). -/
structure PlanStep where
  step_id : String
  operation : String
  tool : ToolType
  dependencies : List String
  estimated_cost : ℚ
  invariants : List String
deriving DecidableEq, Repr

/-- `Plan`: complete analysis execution plan. -/
structure Plan where
  plan_id : String
  objective : String
  steps : List PlanStep
  total_cost : ℚ
  deliverables : List String
deriving DecidableEq, Repr

/-- `Operation` (from `intent_parser.py`): one operation of a parsed
intent, with explicit dependency ids. -/
structure Operation where
  id : String
  description : String
  dependencies : List String
deriving DecidableEq, Repr

/-! ## Actor (`actor/actor.py`, `actor/observation.py`) -/

/-- `ExecutionStatus`. -/
inductive ExecutionStatus where
  | success
  | failure
  | mixedResult  -- the PARTIAL status
deriving DecidableEq, Repr

/-- Values stored in `Observation.metadata` by the Actor:
`_extract_metadata` writes integer counts (`row_count`, `column_count`) and
a column-name list (`columns`); `_has_prior_filter` compares a metadata
value against the string `"filter"`. -/
inductive MetaValue where
  | nat (n : Nat)
  | str (s : String)
  | strList (l : List String)
deriving DecidableEq, Repr

/-- `Observation`: execution observation for the self-repair feedback loop.
`result` is kept abstract in the type parameter `R`; `metadata` is the
dict written by `_extract_metadata`. -/
structure Observation (R : Type) where
  step_id : String
  status : ExecutionStatus
  result : Option R
  error_message : Option String
  retry_count : Nat
  metadata : List (String × MetaValue)
deriving DecidableEq

/-- Python dict lookup for a dict built by iterating a list of key/value
pairs: the last binding of a key wins. -/
def dictGet {α : Type} (l : List (String × α)) (k : String) : Option α :=
  (l.reverse.find? (fun p => p.1 == k)).map (·.2)

/-- `Observation.is_recoverable`'s fixed substring patterns. -/
def recoverablePatterns : List String :=
  ["timeout", "connection", "temporary", "rate limit", "retry"]

/-- Python `str.lower()` (code-point-wise, ASCII inputs here). -/
def lowerStr (s : String) : String :=
  ⟨s.data.map Char.toLower⟩

/-- `Observation.is_recoverable` restricted to a `FAILURE` observation with
an error message: the lowercased message contains one of the fixed
patterns.  (`is_recoverable` returns `False` for non-failures and missing
messages; the executor below only consults it on failure messages.) -/
def isRecoverableMsg (msg : String) : Bool :=
  recoverablePatterns.any (fun p => containsSub p.data (lowerStr msg).data)

/-- The shape of a tool result that `_extract_metadata` probes via
`hasattr`: an optional `shape` (row and column counts) and an optional
`columns` list. -/
structure ToolResult where
  shape : Option (Nat × Nat)
  columns : Option (List String)
deriving DecidableEq, Repr

/-- `Actor._extract_metadata`: row/column counts from `result.shape` and
the column list from `result.columns`.  No other key — in particular no
`operation_type` — is ever written. -/
def extractMetadata (result : ToolResult) : List (String × MetaValue) :=
  (match result.shape with
   | some (r, c) => [("row_count", MetaValue.nat r), ("column_count", MetaValue.nat c)]
   | none => []) ++
  (match result.columns with
   | some cols => [("columns", MetaValue.strList cols)]
   | none => [])

/-- A tool's behavior across retry attempts: attempt `n` either returns a
result or raises an exception rendered as its message string
(`f"TypeName: message"`). -/
def ToolBehavior : Type :=
  Nat → Except String ToolResult

/-- The retry loop of `Actor.execute_with_repair`
(`for attempt in range(max_retries+1)`), recursing on the number of
attempts still available: `remaining = maxRetries - attempt`, so the
source's `attempt < max_retries` test is `remaining` being nonzero.  On
success it returns a `SUCCESS` observation with `retry_count = attempt`;
on an exception it retries while the message is recoverable and attempts
remain, else returns the final `FAILURE` observation. -/
def repairLoop (tool : ToolBehavior) (step_id : String) (maxRetries : Nat) :
    Nat → Nat → Observation ToolResult
  | remaining, attempt =>
    match tool attempt with
    | .ok r =>
      { step_id := step_id
        status := .success
        result := some r
        error_message := none
        retry_count := attempt
        metadata := extractMetadata r }
    | .error msg =>
      if isRecoverableMsg msg then
        match remaining with
        | remaining' + 1 => repairLoop tool step_id maxRetries remaining' (attempt + 1)
        | 0 =>
          { step_id := step_id
            status := .failure
            result := none
            error_message := some
              ("Max retries (" ++ toString maxRetries ++ ") exceeded. Last error: " ++ msg)
            retry_count := attempt
            metadata := [] }
      else
        { step_id := step_id
          status := .failure
          result := none
          error_message := some ("Non-recoverable error: " ++ msg)
          retry_count := attempt
          metadata := [] }

/-- `Actor.execute_with_repair`: runs the retry loop from attempt 0 (with
all `maxRetries` retries available) and appends exactly the returned
observation to the execution history (the only `execution_history.append`
calls are on the observation that is then returned). -/
def executeWithRepair (tool : ToolBehavior) (step_id : String) (maxRetries : Nat)
    (history : List (Observation ToolResult)) :
    Observation ToolResult × List (Observation ToolResult) :=
  let obs := repairLoop tool step_id maxRetries maxRetries 0
  (obs, history ++ [obs])

/-- `Actor._has_prior_filter`: build the last-wins dict over the execution
history keyed by `step_id`, then report whether some declared dependency's
observation has `metadata["operation_type"] == "filter"`. -/
def hasPriorFilter (history : List (Observation ToolResult)) (step : PlanStep) : Bool :=
  let historyPairs := history.map (fun o => (o.step_id, o))
  step.dependencies.any (fun dep =>
    match dictGet historyPairs dep with
    | some obs => dictGet obs.metadata "operation_type" == some (MetaValue.str "filter")
    | none => false)

/-- `Actor._validate_invariants`: for each invariant containing
`filter_before_aggregate`, if the grounded arguments carry
`operation_type == "aggregate"` then some dependency must have a prior
filter in the history, else a `ValueError` is raised.  Arguments are
modelled as the string-valued entries of the grounded argument dict (the
DataFrame payloads play no role here). -/
def validateInvariants (history : List (Observation ToolResult)) (step : PlanStep)
    (arguments : List (String × String)) : Except String Unit :=
  if step.invariants.any (fun inv =>
      containsSub "filter_before_aggregate".data inv.data
        && dictGet arguments "operation_type" == some "aggregate"
        && !hasPriorFilter history step) then
    .error "Invariant violation: filter_before_aggregate not satisfied"
  else
    .ok ()

/-- The `operation_type` classification of
`Actor._extract_df_arguments` (string-valued arguments only; the
`operation` text itself and any DataFrame from context are irrelevant to
invariant validation). -/
def dfOperationType (operation : String) : Option String :=
  let lower := (lowerStr operation).data
  if containsSub "filter".data lower || containsSub "where".data lower then some "filter"
  else if containsSub "group".data lower || containsSub "aggregate".data lower then some "aggregate"
  else if containsSub "sort".data lower then some "sort"
  else if containsSub "join".data lower then some "join"
  else none

/-- The string-valued arguments produced by `Actor._extract_df_arguments`:
`operation` plus the keyword-derived `operation_type`. -/
def extractDfArguments (step : PlanStep) : List (String × String) :=
  [("operation", step.operation)] ++
  (match dfOperationType step.operation with
   | some t => [("operation_type", t)]
   | none => [])

/-! ## Schema fingerprinter (`memory/schema_fingerprint.py`)

Column names and declared types are `List Char` (Python compares and sorts
strings by code points, which is the `LinearOrder (List Char)` lexicographic
order).  SHA-256 over the joined schema string is an abstract function
`hash`; its collision resistance is an injectivity hypothesis where the
claim needs it. -/

/-- `TYPE_NORMALIZATION`: the fixed declared-type lookup table. -/
def typeNormalization : List (String × String) :=
  [("int64", "integer"), ("int32", "integer"), ("int16", "integer"), ("int8", "integer"),
   ("float64", "float"), ("float32", "float"),
   ("object", "string"), ("string", "string"),
   ("bool", "boolean"),
   ("datetime64[ns]", "timestamp"), ("datetime64[ns, UTC]", "timestamp"),
   ("timedelta64[ns]", "interval")]

/-- `SchemaFingerprinter._normalize_type`: look the original dtype up in the
table, falling back to its lowercasing. -/
def normalizeType (dtype : List Char) : List Char :=
  match typeNormalization.find? (fun p => p.1.data == dtype) with
  | some p => p.2.data
  | none => dtype.map Char.toLower

/-- The declared dtype of column `n` (`columns[col_name]`; the name is
always present when taken from the dict's keys). -/
def lookupDtype (cols : List (List Char × List Char)) (n : List Char) : List Char :=
  match cols.find? (fun p => p.1 == n) with
  | some p => p.2
  | none => []

/-- The `"name:dtype"` items of `compute_fingerprint`, in sorted column-name
order.  `sorted(columns.keys())` is modelled by Mathlib's (stable)
`insertionSort` under the lexicographic order. -/
def schemaItems (normalize : Bool) (cols : List (List Char × List Char)) :
    List (List Char) :=
  (List.insertionSort (· ≤ ·) (cols.map (·.1))).map (fun n =>
    let dtype := lookupDtype cols n
    n ++ ':' :: (if normalize then normalizeType dtype else dtype))

/-- Python `sep.join(items)`. -/
def pyJoin (sep : List Char) : List (List Char) → List Char
  | [] => []
  | [x] => x
  | x :: y :: xs => x ++ sep ++ pyJoin sep (y :: xs)

/-- The joined schema string `",".join(schema_items)` that gets hashed. -/
def schemaStr (normalize : Bool) (cols : List (List Char × List Char)) : List Char :=
  pyJoin [','] (schemaItems normalize cols)

/-- `SchemaFingerprinter.compute_fingerprint`.  A schema dict is an
association list with distinct names; `tableName` is accepted and — as in
the source — never used.  An empty schema raises `ValueError`. -/
def computeFingerprint {Hash : Type} (hash : List Char → Hash) (normalize : Bool)
    (cols : List (List Char × List Char)) (tableName : Option (List Char)) :
    Except String Hash :=
  if cols.isEmpty then .error "Cannot compute fingerprint for empty schema"
  else .ok (hash (schemaStr normalize cols))

/-- A DataFrame as far as fingerprinting is concerned: column names with
their dtypes (in declaration order) and the row data. -/
structure DataFrame where
  cols : List (List Char × List Char)
  rows : List (List (List Char))
deriving DecidableEq

/-- `SchemaFingerprinter.compute_fingerprint_from_dataframe`: builds the
name-to-dtype dict from the DataFrame's columns and fingerprints it; the
row data is never read. -/
def fingerprintFromDataFrame {Hash : Type} (hash : List Char → Hash)
    (df : DataFrame) : Except String Hash :=
  computeFingerprint hash true df.cols none

/-! ## Recipe store (`memory/recipe_store.py`) -/

/-- `Recipe`: a stored analysis pattern.  The embedding vector is a list of
exact rationals (float32 values are rationals). -/
structure Recipe where
  recipe_id : String
  schema_fingerprint : String
  intent_template : String
  intent_embedding : List ℚ
  plan_structure : String
  tool_argument_templates : String
  success_count : Nat
  created_at : String
  last_used_at : String
deriving DecidableEq

/-- `np.dot` on equal-length vectors. -/
def dotProduct (a b : List ℚ) : ℚ :=
  (List.zipWith (· * ·) a b).sum

/-- The squared Euclidean norm (`np.linalg.norm(a) ** 2`); it is zero
exactly when the vector is all-zero, so the `norm == 0` test of
`_cosine_similarity` is `normSq = 0`. -/
def normSq (a : List ℚ) : ℚ :=
  dotProduct a a

/-- `RecipeStore._cosine_similarity`, encoded order-isomorphically: the
source computes `dot(a,b) / (norm(a) * norm(b))` (and `0.0` when either
norm is zero).  To stay in exact arithmetic this returns the signed square
`c * |c|` of that cosine `c`, which equals
`dot * |dot| / (normSq a * normSq b)`: the map `t ↦ t * |t|` is strictly
increasing, so comparisons, the induced ranking order and zeroness are
exactly those of the cosine itself. -/
def cosineSimScore (a b : List ℚ) : ℚ :=
  if normSq a = 0 ∨ normSq b = 0 then 0
  else (dotProduct a b * |dotProduct a b|) / (normSq a * normSq b)

/-- `RecipeStore.retrieve_recipes`: filter the stored recipes by exact
`schema_fingerprint` equality (the SQL `WHERE` clause), attach the
similarity score against the query intent's embedding, sort descending by
score (`candidates.sort(reverse=True, key=lambda x: x[0])`, a stable sort,
modelled by `insertionSort`), truncate to `top_k` and return the recipes. -/
def retrieveRecipes (stored : List Recipe) (fp : String) (queryEmb : List ℚ)
    (topK : Nat) : List Recipe :=
  let candidates := (stored.filter (fun r => r.schema_fingerprint == fp)).map
    (fun r => (cosineSimScore queryEmb r.intent_embedding, r))
  let sorted := List.insertionSort (fun x y : ℚ × Recipe => x.1 ≥ y.1) candidates
  (sorted.take topK).map (·.2)

/-! ## Plan builder (`planner/plan_builder.py`)

`build_plan` is modelled in its explicit-dependency mode
(`List[Operation]`), the mode claims C3 and C10 are about.  The
`uuid.uuid4()` plan id is an explicit input. -/

/-- `PlanBuilder.TOOL_COSTS` (`TOOL_COSTS.get(tool, 1.0)` never falls back:
every tool is in the dict). -/
def toolCost : ToolType → ℚ
  | .sql_runner => 2
  | .df_operations => 1
  | .plotter => 3/2
  | .profiler => 1/2

/-- `PlanBuilder._select_tool`: keyword classifier over the lowercased
operation text. -/
def selectTool (operation : String) : ToolType :=
  let lower := (lowerStr operation).data
  if ["query", "select", "fetch", "sql"].any (fun kw => containsSub kw.data lower) then
    .sql_runner
  else if ["plot", "chart", "visualize", "graph"].any (fun kw => containsSub kw.data lower) then
    .plotter
  else if ["profile", "schema", "discover"].any (fun kw => containsSub kw.data lower) then
    .profiler
  else
    .df_operations

/-- `PlanBuilder._extract_invariants`. -/
def extractInvariants (operation : String) (constraints : List String) : List String :=
  (if containsSub "filter".data (lowerStr operation).data
      || containsSub "where".data (lowerStr operation).data then
    ["filter_before_aggregate"]
  else []) ++
  constraints.filter (fun c =>
    containsSub "row".data (lowerStr c).data || containsSub "limit".data (lowerStr c).data)

/-- The step id `f"{plan_id[:8]}-{op.id}"` given to the step of operation
`opId`. -/
def stepIdOf (planId : String) (opId : String) : String :=
  planId.take 8 ++ "-" ++ opId

/-- Is index `i` the last occurrence of its operation id in `ops`?  (The
source's `step_index` dict maps each id to the step of its last
occurrence, and pass 2 overwrites that step's dependency list once per
occurrence, so only the last occurrence's declared dependencies survive.) -/
def isLastOcc (ops : List Operation) (i : Nat) : Bool :=
  match ops[i]? with
  | none => false
  | some op => (ops.drop (i + 1)).all (fun o => o.id != op.id)

/-- The first `(operation id, dependency id)` pair with an unresolved
dependency reference, in the iteration order of pass 2. -/
def findUnknownDep (ops : List Operation) : Option (String × String) :=
  ops.findSome? (fun op =>
    (op.dependencies.find? (fun d => ops.all (fun o => o.id != d))).map
      (fun d => (op.id, d)))

/-- The steps produced by the two passes of `build_plan` (explicit mode):
one step per operation in order; the dependency list of the step aliased by
`step_index[id]` ends up holding the last same-id operation's resolved
dependencies, every other step keeps the empty list from pass 1.  A
declared dependency `d` resolves to `step_index[d].step_id`, which is
`stepIdOf planId d` whatever occurrence the index retained. -/
def buildSteps (planId : String) (constraints : List String)
    (ops : List Operation) : List PlanStep :=
  ops.enum.map (fun (i, op) =>
    { step_id := stepIdOf planId op.id
      operation := op.description
      tool := selectTool op.description
      dependencies :=
        if isLastOcc ops i then op.dependencies.map (stepIdOf planId) else []
      estimated_cost := toolCost (selectTool op.description)
      invariants := extractInvariants op.description constraints })

/-- The adjacency lookup of `_has_cycle`:
`adj = {step.step_id: step.dependencies for step in steps}` (a later step
with the same id overwrites an earlier one), `adj.get(node, [])`. -/
def adjGet (steps : List PlanStep) (n : String) : List String :=
  match steps.reverse.find? (fun s => s.step_id == n) with
  | some s => s.dependencies
  | none => []

/-- The `for neighbor in adj.get(node, [])` loop of `dfs`, parametrized by
the recursive visit of an unvisited node: report a cycle when a neighbor is
on the recursion stack, recurse into unvisited neighbors (propagating a
found cycle and the grown visited set). -/
def dfsScan (visit : String → List String → List String → Bool × List String) :
    List String → List String → List String → Bool × List String
  | [], visited, _ => (false, visited)
  | nb :: rest, visited, stack =>
    if visited.contains nb then
      if stack.contains nb then (true, visited)
      else dfsScan visit rest visited stack
    else
      match visit nb visited stack with
      | (true, v') => (true, v')
      | (false, v') => dfsScan visit rest v' stack

/-- The recursive `dfs(node)` of `_has_cycle`: mark `node` visited, push it
on the recursion stack and scan its neighbors.  `visited` persists (it is
returned); the stack is restored on return (modelled by passing it down).
`fuel` bounds the recursion depth; `hasCycle` supplies more fuel than the
number of steps, which the correctness proofs show is never exhausted. -/
def dfsVisit (steps : List PlanStep) : Nat → String → List String → List String →
    Bool × List String
  | 0, _, visited, _ => (true, visited)
  | fuel + 1, node, visited, stack =>
    dfsScan (dfsVisit steps fuel) (adjGet steps node) (node :: visited) (node :: stack)

/-- The top-level loop of `_has_cycle`: start a DFS from every step id not
yet visited. -/
def hasCycleLoop (steps : List PlanStep) (fuel : Nat) :
    List String → List String → Bool
  | [], _ => false
  | n :: ns, visited =>
    if visited.contains n then hasCycleLoop steps fuel ns visited
    else
      match dfsVisit steps fuel n visited [] with
      | (true, _) => true
      | (false, v') => hasCycleLoop steps fuel ns v'

/-- `PlanBuilder._has_cycle`. -/
def hasCycle (steps : List PlanStep) : Bool :=
  hasCycleLoop steps (steps.length + 1) (steps.map (·.step_id)) []

/-- `PlanBuilder._validate_dag`: every dependency must be a step id, then
the cycle check. -/
def validateDag (steps : List PlanStep) : Except String Unit :=
  let stepIds := steps.map (·.step_id)
  match steps.findSome? (fun s =>
      (s.dependencies.find? (fun d => !stepIds.contains d)).map
        (fun d => (s.step_id, d))) with
  | some (sid, d) => .error ("Step " ++ sid ++ " has invalid dependency: " ++ d)
  | none =>
    if hasCycle steps then .error "Plan contains cycle - DAG validation failed"
    else .ok ()

/-- `PlanBuilder.build_plan` (explicit-dependency mode): pass 2's
unresolved-reference error, then `_validate_dag`, then the plan with
`total_cost = sum(step.estimated_cost for step in steps)`. -/
def buildPlan (planId objective : String) (ops : List Operation)
    (deliverables constraints : List String) : Except String Plan :=
  match findUnknownDep ops with
  | some (opid, dep) =>
    .error ("Operation '" ++ opid ++ "' has invalid dependency reference '" ++ dep ++ "'")
  | none =>
    let steps := buildSteps planId constraints ops
    match validateDag steps with
    | .error e => .error e
    | .ok _ =>
      .ok { plan_id := planId
            objective := objective
            steps := steps
            total_cost := (steps.map (·.estimated_cost)).sum
            deliverables := deliverables }

/-- `PlanBuilder.add_step`: build the new step (its `uuid.uuid4()` id is
the explicit input `newStepId`), re-validate the extended DAG, and return
the updated plan. -/
def addStep (plan : Plan) (newStepId operation : String)
    (dependencies constraints : List String) : Except String Plan :=
  let tool := selectTool operation
  let cost := toolCost tool
  let newStep : PlanStep :=
    { step_id := newStepId
      operation := operation
      tool := tool
      dependencies := dependencies
      estimated_cost := cost
      invariants := extractInvariants operation constraints }
  match validateDag (plan.steps ++ [newStep]) with
  | .error e => .error e
  | .ok _ =>
    .ok { plan_id := plan.plan_id
          objective := plan.objective
          steps := plan.steps ++ [newStep]
          total_cost := plan.total_cost + cost
          deliverables := plan.deliverables }

/-- The spec's dependency relation on operation ids, following the spec's
words for claim C3: operation `x` declares a dependency on `y`. -/
def specDepEdge (ops : List Operation) (x y : String) : Prop :=
  ∃ op ∈ ops, op.id = x ∧ y ∈ op.dependencies

/-- The spec's "some operation's declared dependency id is unknown among
the operation ids", following the spec's words for claim C3. -/
def specUnknownDep (ops : List Operation) : Prop :=
  ∃ op ∈ ops, ∃ d ∈ op.dependencies, d ∉ ops.map (·.id)

/-- The spec's "the dependency graph contains a cycle", following the
spec's words for claim C3: a nonempty dependency path from some id back to
itself. -/
def specHasCycle (ops : List Operation) : Prop :=
  ∃ x, Relation.TransGen (specDepEdge ops) x x

/-- The analogous edge relation on built steps (used to relate the DFS of
`_has_cycle` to the declared graph). -/
def stepEdge (steps : List PlanStep) (x y : String) : Prop :=
  ∃ s ∈ steps, s.step_id = x ∧ y ∈ s.dependencies

/-! ## Predicates and concrete scenario inputs used by the verification -/

/-- The list of entries is a well-formed hash chain when replayed from
`expected`: each entry's parent is the running expected hash and its stored
hash is the recomputed one. -/
def ChainedFrom {D H : Type} (h : EntryData D H → H) (expected : H) :
    List (LogEntry D H) → Prop
  | [] => True
  | e :: rest =>
    e.parent_hash = expected ∧ e.entry_hash = computeHash h e ∧
      ChainedFrom h e.entry_hash rest

/-- The hash a next entry's parent must equal after `l` (`expected` if `l`
is empty, else the last entry's hash). -/
def tailExpected {D H : Type} (expected : H) (l : List (LogEntry D H)) : H :=
  match l.getLast? with
  | some e => e.entry_hash
  | none => expected

/-- The edge relation of the graph that `_has_cycle` searches: `y` is among
`adj.get(x, [])`. -/
def dfsEdge (steps : List PlanStep) (x y : String) : Prop :=
  y ∈ adjGet steps x

/-- The recursion stack (head = most recently pushed) is a path: each entry
is a neighbor of the one pushed before it. -/
def StackChain (steps : List PlanStep) (l : List String) : Prop :=
  List.Chain' (fun a b => dfsEdge steps b a) l

/-- The visited nodes that are off the recursion stack ("black" nodes) lie
on no cycle of the searched graph. -/
def BlackInv (steps : List PlanStep) (v s : List String) : Prop :=
  ∀ x ∈ v, x ∉ s → ¬ Relation.TransGen (dfsEdge steps) x x

/-- How many step ids are not yet visited (the DFS fuel measure). -/
def unvisitedCount (steps : List PlanStep) (v : List String) : Nat :=
  ((steps.map (·.step_id)).toFinset \ v.toFinset).card

/-- All dependencies of all steps are step ids (what holds once
`_validate_dag`'s dependency-existence pass succeeded). -/
def DepsClosed (steps : List PlanStep) : Prop :=
  ∀ s ∈ steps, ∀ d ∈ s.dependencies, d ∈ steps.map (·.step_id)

/-- Concrete flaky tool for the retry scenarios: raises a
connection-timeout error on attempts 0 and 1, succeeds from attempt 2. -/
def flakyTool : ToolBehavior := fun n =>
  if n < 2 then .error "ConnectionError: Connection timeout" else .ok ⟨none, none⟩

/-- Concrete operation list with a duplicate id: the declared graph has the
cycle `a -> b -> a`, but `build_plan`'s `step_index` maps `a` to its second
occurrence, whose pass-2 overwrite erases the `a -> b` edge. -/
def dupIdOps : List Operation :=
  [⟨"a", "transform one", ["b"]⟩, ⟨"a", "transform two", []⟩, ⟨"b", "transform three", ["a"]⟩]

/-- Concrete schema for the fingerprint collision: two columns named
`":,a"` and `":,a:,"`, both of declared type `""`. -/
def collideColsA : List (List Char × List Char) :=
  [(":,a".data, "".data), (":,a:,".data, "".data)]

/-- `collideColsA` with the single column `":,a"` renamed to `"a:,"` (same
type, same other column): sorting flips the two items and the joined schema
string re-parses to the same characters. -/
def collideColsB : List (List Char × List Char) :=
  [("a:,".data, "".data), (":,a:,".data, "".data)]

/-- Concrete inputs for the mutation scenario: two appended audit entries. -/
def mutationInputs : List (String × String × String × Nat) :=
  [("entry-1", "2025-01-01T00:00:00Z", "request_submitted", 5),
   ("entry-2", "2025-01-01T00:00:01Z", "tool_called", 7)]

/-- A placeholder entry (never selected) for total indexing. -/
def dummyEntry : LogEntry Nat (HashVal Nat) :=
  { entry_id := "", timestamp := "", event_type := "", data := 0,
    parent_hash := .genesis, entry_hash := .genesis }

/-- The second entry of the built two-entry log. -/
def secondEntry : LogEntry Nat (HashVal Nat) :=
  ((buildLog freeHash HashVal.genesis mutationInputs).entries).getD 1 dummyEntry

/-- `secondEntry` with only its `data` field changed. -/
def mutatedSecondEntry : LogEntry Nat (HashVal Nat) :=
  { secondEntry with data := 8 }

/-- The plan step of a filter operation that claim C9's scenario executes
first. -/
def filterDepStep : PlanStep :=
  { step_id := "step-1", operation := "Filter rows where region is west",
    tool := .df_operations, dependencies := [], estimated_cost := 1, invariants := [] }

/-- The aggregate step depending on the filter step, carrying the
`filter_before_aggregate` marker. -/
def aggregateStep : PlanStep :=
  { step_id := "step-2", operation := "Aggregate revenue by region",
    tool := .df_operations, dependencies := ["step-1"], estimated_cost := 1,
    invariants := ["filter_before_aggregate"] }

/-- A tool that always succeeds, returning a small DataFrame-shaped
result. -/
def okTool : ToolBehavior := fun _ =>
  .ok { shape := some (10, 2), columns := some ["region", "revenue"] }

/-- The execution history after successfully executing the filter step:
exactly the observation recorded by `execute_with_repair`. -/
def historyAfterFilter : List (Observation ToolResult) :=
  (executeWithRepair okTool filterDepStep.step_id 3 []).2


/-- A concrete valid plan used to witness `add_step`'s frame conditions. -/
def c10Base : Plan :=
  { plan_id := "plan-1", objective := "analyze", deliverables := ["table"],
    steps := [{ step_id := "sid-1", operation := "sort data", tool := .df_operations,
                dependencies := [], estimated_cost := 1, invariants := [] }],
    total_cost := 1 }

/-- The plan produced by the witnessed successful `add_step` call. -/
def c10Result : Plan :=
  (addStep c10Base "sid-2" "aggregate values" ["sid-1"] []).toOption.getD c10Base

/-- The step built for one operation when its id's last occurrence is
itself (the duplicate-free regime of `build_plan`'s two passes). -/
def simpleStep (planId : String) (constraints : List String) (op : Operation) : PlanStep :=
  { step_id := stepIdOf planId op.id
    operation := op.description
    tool := selectTool op.description
    dependencies := op.dependencies.map (stepIdOf planId)
    estimated_cost := toolCost (selectTool op.description)
    invariants := extractInvariants op.description constraints }

/-- A duplicate-free two-operation list used to instantiate the amended C3
statement. -/
def c3WitnessOps : List Operation :=
  [⟨"a", "transform widen", []⟩, ⟨"b", "aggregate totals", ["a"]⟩]

/-! # Theorems -/

/-! ## C5 — SQL policy checking -/

/-- C5 is false as stated: `check_query("SELECT * FROM users; DROP TABLE
users;")` is disallowed, but with severity `critical`, not `high` — the
`DROP` keyword matches first and sets `critical`, which the later
multiple-statement `max(severity, "high")` cannot lower. -/
theorem c5_counterexample :
    (checkQuery "SELECT * FROM users; DROP TABLE users;").allowed = false ∧
    (checkQuery "SELECT * FROM users; DROP TABLE users;").severity = "critical" ∧
    "critical" ≠ "high" := by
  decide

/-- C5 (amended): `check_query("DROP TABLE users")` and
`check_query("SELECT * FROM users; DROP TABLE users;")` are both disallowed
with `critical` severity; `check_query("SELECT id FROM users WHERE age >
18")` is allowed; and in general a query matching none of the keyword sets,
containing no non-leading comment marker and no semicolon before the final
trailing semicolon, is allowed. -/
theorem c5_policy_amended :
    (checkQuery "DROP TABLE users").allowed = false ∧
    (checkQuery "DROP TABLE users").severity = "critical" ∧
    (checkQuery "SELECT * FROM users; DROP TABLE users;").allowed = false ∧
    (checkQuery "SELECT * FROM users; DROP TABLE users;").severity = "critical" ∧
    (checkQuery "SELECT id FROM users WHERE age > 18").allowed = true ∧
    ∀ q : String,
      (∀ k ∈ ddlKeywords ++ dmlKeywords ++ dangerousKeywords,
        containsWord k.data (q.data.map Char.toUpper) = false) →
      (containsSub ['-', '-'] q.data && !(['-', '-'].isPrefixOf (pyStrip q.data))) = false →
      (rstripSemi (pyStrip q.data)).contains ';' = false →
      (checkQuery q).allowed = true := by
  refine ⟨by decide, by decide, by decide, by decide, by decide, ?_⟩
  intro q hkw hc hm
  have hddl : ddlKeywords.filter (fun k => containsWord k.data (q.data.map Char.toUpper)) = [] := by
    rw [List.filter_eq_nil_iff]
    intro k hk
    simp [hkw k (by simp [hk])]
  have hdml : dmlKeywords.filter (fun k => containsWord k.data (q.data.map Char.toUpper)) = [] := by
    rw [List.filter_eq_nil_iff]
    intro k hk
    simp [hkw k (by simp [hk])]
  have hdang : dangerousKeywords.filter (fun k => containsWord k.data (q.data.map Char.toUpper)) = [] := by
    rw [List.filter_eq_nil_iff]
    intro k hk
    simp [hkw k (by simp [hk])]
  simp only [checkQuery, hddl, hdml, hdang, hc, hm, List.map_nil, List.nil_append,
    Bool.false_and, List.append_nil, if_neg, Bool.false_eq_true, not_false_iff]
  simp

/-- C5 witness: the general allowed-clause of `c5_policy_amended` applied to
a concrete harmless query. -/
theorem c5_policy_amended_witness :
    (checkQuery "SHOW name FROM t").allowed = true :=
  c5_policy_amended.2.2.2.2.2 "SHOW name FROM t" (by decide) (by decide) (by decide)

/-! ## C10 — `add_step` frame conditions -/

/-- A successful `Except` computation equals `.ok` of its extracted value
(used to discharge success hypotheses without deciding payload equality). -/
theorem exceptOk_of_isOk {ε α : Type} (e : Except ε α) (d : α) (h : e.isOk = true) :
    e = .ok (e.toOption.getD d) := by
  cases e with
  | error _ => simp [Except.isOk, Except.toBool] at h
  | ok a => rfl

/-- C10: a successful `add_step` keeps `plan_id`, `objective` and
`deliverables`, appends exactly one new step at the end of the unchanged
steps list, and adds that step's `estimated_cost` to `total_cost`. -/
theorem c10_addStep_frame (plan : Plan) (newStepId operation : String)
    (dependencies constraints : List String) (p' : Plan)
    (hok : addStep plan newStepId operation dependencies constraints = .ok p') :
    p'.plan_id = plan.plan_id ∧ p'.objective = plan.objective ∧
    p'.deliverables = plan.deliverables ∧
    ∃ s : PlanStep, p'.steps = plan.steps ++ [s] ∧
      p'.total_cost = plan.total_cost + s.estimated_cost := by
  simp only [addStep] at hok
  split at hok
  · exact absurd hok (by simp)
  · injection hok with h
    subst h
    exact ⟨rfl, rfl, rfl, _, rfl, rfl⟩

/-- C10 witness: the frame conditions at a concrete successful call. -/
theorem c10_addStep_frame_witness :
    c10Result.plan_id = c10Base.plan_id ∧ c10Result.objective = c10Base.objective ∧
    c10Result.deliverables = c10Base.deliverables ∧
    ∃ s : PlanStep, c10Result.steps = c10Base.steps ++ [s] ∧
      c10Result.total_cost = c10Base.total_cost + s.estimated_cost :=
  c10_addStep_frame c10Base "sid-2" "aggregate values" ["sid-1"] [] c10Result
    (exceptOk_of_isOk _ c10Base (by decide))

/-! ## C4 — retry semantics -/

/-- C4: a tool raising recoverable (connection-timeout-style) errors on its
first two attempts and succeeding on the third yields a SUCCESS observation
with `retry_count = 2` under the default `max_retries = 3`; a tool whose
first attempt raises a non-recoverable error yields a FAILURE observation
with `retry_count = 0` and a non-recoverable message, no retry attempted. -/
theorem c4_retry_semantics :
    (∀ (tool : ToolBehavior) (sid m0 m1 : String) (r : ToolResult),
      tool 0 = .error m0 → isRecoverableMsg m0 = true →
      tool 1 = .error m1 → isRecoverableMsg m1 = true →
      tool 2 = .ok r →
      (executeWithRepair tool sid 3 []).1.status = .success ∧
      (executeWithRepair tool sid 3 []).1.retry_count = 2) ∧
    (∀ (tool : ToolBehavior) (sid m : String),
      tool 0 = .error m → isRecoverableMsg m = false →
      (executeWithRepair tool sid 3 []).1.status = .failure ∧
      (executeWithRepair tool sid 3 []).1.retry_count = 0 ∧
      (executeWithRepair tool sid 3 []).1.error_message =
        some ("Non-recoverable error: " ++ m)) := by
  constructor
  · intro tool sid m0 m1 r h0 hr0 h1 hr1 h2
    simp [executeWithRepair, repairLoop, h0, hr0, h1, hr1, h2]
  · intro tool sid m h0 hr0
    simp [executeWithRepair, repairLoop, h0, hr0]

/-- C4 witness: the two scenarios at concrete tools. -/
theorem c4_retry_semantics_witness :
    ((executeWithRepair flakyTool "step-1" 3 []).1.status = .success ∧
      (executeWithRepair flakyTool "step-1" 3 []).1.retry_count = 2) ∧
    ((executeWithRepair (fun _ => .error "ValueError: bad input") "step-1" 3 []).1.status
        = .failure ∧
      (executeWithRepair (fun _ => .error "ValueError: bad input") "step-1" 3 []).1.retry_count
        = 0 ∧
      (executeWithRepair (fun _ => .error "ValueError: bad input") "step-1" 3 []).1.error_message
        = some ("Non-recoverable error: " ++ "ValueError: bad input")) :=
  ⟨c4_retry_semantics.1 flakyTool "step-1" "ConnectionError: Connection timeout"
      "ConnectionError: Connection timeout" ⟨none, none⟩ rfl (by decide) rfl (by decide) rfl,
    c4_retry_semantics.2 (fun _ => .error "ValueError: bad input") "step-1"
      "ValueError: bad input" rfl (by decide)⟩

/-! ## C8 — history growth per `execute_with_repair` call -/

/-- C8 is false as stated: a call making three attempts (two recoverable
failures, then success, so `retry_count = 2`) grows the history by one
entry, not by the number of attempts. -/
theorem c8_counterexample :
    (executeWithRepair flakyTool "step-1" 3 []).1.retry_count = 2 ∧
    (executeWithRepair flakyTool "step-1" 3 []).1.status = .success ∧
    (executeWithRepair flakyTool "step-1" 3 []).2.length = 1 ∧
    (1 : Nat) ≠ 2 + 1 := by
  decide

/-- C8 (amended): during a single `execute_with_repair` call, exactly one
observation — the returned final one — is appended to the execution
history, whatever the number of attempts: intermediate failed attempts are
classified via a transient `Observation` that is never appended. -/
theorem c8_history_amended (tool : ToolBehavior) (sid : String) (maxRetries : Nat)
    (history : List (Observation ToolResult)) :
    (executeWithRepair tool sid maxRetries history).2
      = history ++ [(executeWithRepair tool sid maxRetries history).1] ∧
    (executeWithRepair tool sid maxRetries history).2.length = history.length + 1 := by
  refine ⟨rfl, ?_⟩
  simp [executeWithRepair]

/-! ## C9 — `filter_before_aggregate` invariant validation -/

/-- C9: evaluation of the code at the failing input.  The filter dependency
step executes successfully (and its operation is classified as a `filter`
by argument grounding), yet invariant validation of the dependent aggregate
step still fails: `_extract_metadata` never records an `operation_type`
key, so `_has_prior_filter` cannot find the prior filter in the history. -/
theorem c9_invariant_bug :
    (executeWithRepair okTool filterDepStep.step_id 3 []).1.status = .success ∧
    dfOperationType filterDepStep.operation = some "filter" ∧
    (validateInvariants historyAfterFilter aggregateStep
      (extractDfArguments aggregateStep)).isOk = false ∧
    hasPriorFilter historyAfterFilter aggregateStep = false ∧
    ∀ r : ToolResult, dictGet (extractMetadata r) "operation_type" = none := by
  refine ⟨by decide, by decide, by decide, by decide, ?_⟩
  intro r
  rcases r with ⟨shape, columns⟩
  rcases shape with _ | ⟨rc, cc⟩ <;> rcases columns with _ | cols <;>
    simp [extractMetadata, dictGet]

/-! ## C1, C2 — Merkle chain integrity -/

/-- A well-chained entry list verifies from its expected parent. -/
theorem verifyFrom_of_chained {D H : Type} [DecidableEq H] (h : EntryData D H → H) :
    ∀ (l : List (LogEntry D H)) (expected : H) (idx : Nat),
      ChainedFrom h expected l → verifyFrom h expected idx l = none := by
  intro l
  induction l with
  | nil => intro expected idx _; rfl
  | cons x rest ih =>
    intro expected idx hc
    obtain ⟨hp, hh, hrest⟩ := hc
    simp only [verifyFrom]
    rw [if_neg (by simp [hp]), if_neg (by simp [hh])]
    exact ih x.entry_hash (idx + 1) hrest

/-- `tailExpected` steps over a head entry. -/
theorem tailExpected_cons {D H : Type} (expected : H) (x : LogEntry D H)
    (l : List (LogEntry D H)) :
    tailExpected expected (x :: l) = tailExpected x.entry_hash l := by
  cases l with
  | nil => simp [tailExpected]
  | cons y t =>
    cases hgl : (y :: t).getLast? with
    | none => simp at hgl
    | some e => simp [tailExpected, List.getLast?_cons_cons, hgl]

/-- `tailExpected` after appending an entry. -/
theorem tailExpected_concat {D H : Type} (expected : H) (e : LogEntry D H)
    (l : List (LogEntry D H)) :
    tailExpected expected (l ++ [e]) = e.entry_hash := by
  simp [tailExpected]

/-- Appending a correctly linked, correctly hashed entry preserves the
chain. -/
theorem chainedFrom_concat {D H : Type} (h : EntryData D H → H) :
    ∀ (l : List (LogEntry D H)) (expected : H) (e : LogEntry D H),
      ChainedFrom h expected l → e.parent_hash = tailExpected expected l →
      e.entry_hash = computeHash h e → ChainedFrom h expected (l ++ [e]) := by
  intro l
  induction l with
  | nil =>
    intro expected e _ hp hh
    exact ⟨by simpa [tailExpected] using hp, hh, trivial⟩
  | cons x rest ih =>
    intro expected e hc hp hh
    obtain ⟨hxp, hxh, hrest⟩ := hc
    exact ⟨hxp, hxh, ih x.entry_hash e hrest (by rwa [tailExpected_cons] at hp) hh⟩

/-- One `append` preserves the well-formedness of the log state. -/
theorem appendEntry_invariant {D H : Type} (h : EntryData D H → H) (genesis : H)
    (log : MerkleLog D H) (input : String × String × String × D)
    (hc : ChainedFrom h genesis log.entries)
    (hl : log.lastHash.getD genesis = tailExpected genesis log.entries) :
    ChainedFrom h genesis (appendEntry h genesis log input).entries ∧
    (appendEntry h genesis log input).lastHash.getD genesis
      = tailExpected genesis (appendEntry h genesis log input).entries ∧
    (appendEntry h genesis log input).entries.length = log.entries.length + 1 := by
  refine ⟨chainedFrom_concat h log.entries genesis _ hc (by simpa using hl) rfl,
    ?_, by simp [appendEntry]⟩
  show (some _).getD genesis = tailExpected genesis (log.entries ++ [_])
  rw [tailExpected_concat]
  rfl

/-- The fold of `append` over a well-formed log state preserves the chain,
the cached last hash and the length. -/
theorem buildLog_invariant {D H : Type} (h : EntryData D H → H) (genesis : H) :
    ∀ (inputs : List (String × String × String × D)) (log : MerkleLog D H),
      ChainedFrom h genesis log.entries →
      log.lastHash.getD genesis = tailExpected genesis log.entries →
      ChainedFrom h genesis (inputs.foldl (appendEntry h genesis) log).entries ∧
      (inputs.foldl (appendEntry h genesis) log).lastHash.getD genesis
        = tailExpected genesis (inputs.foldl (appendEntry h genesis) log).entries ∧
      (inputs.foldl (appendEntry h genesis) log).entries.length
        = log.entries.length + inputs.length := by
  intro inputs
  induction inputs with
  | nil => intro log hc hl; exact ⟨hc, hl, rfl⟩
  | cons input rest ih =>
    intro log hc hl
    obtain ⟨h1, h2, h3⟩ := appendEntry_invariant h genesis log input hc hl
    obtain ⟨g1, g2, g3⟩ := ih (appendEntry h genesis log input) h1 h2
    refine ⟨by simpa using g1, by simpa using g2, ?_⟩
    simp only [List.foldl_cons] at *
    rw [g3, h3, List.length_cons]
    omega

/-- A chained list's head has the expected parent. -/
theorem chained_head_parent {D H : Type} (h : EntryData D H → H) (expected : H)
    (l : List (LogEntry D H)) (hc : ChainedFrom h expected l)
    (e₀ : LogEntry D H) (h0 : l[0]? = some e₀) : e₀.parent_hash = expected := by
  cases l with
  | nil => simp at h0
  | cons x rest =>
    simp at h0
    subst h0
    exact hc.1

/-- In a chained list, each entry's parent is the previous entry's hash. -/
theorem chained_consecutive {D H : Type} (h : EntryData D H → H) :
    ∀ (l : List (LogEntry D H)) (expected : H), ChainedFrom h expected l →
      ∀ (i : Nat) (e e' : LogEntry D H), l[i]? = some e → l[i+1]? = some e' →
        e'.parent_hash = e.entry_hash := by
  intro l
  induction l with
  | nil => intro expected _ i e e' he; simp at he
  | cons x rest ih =>
    intro expected hc i e e' he he'
    obtain ⟨hp, hh, hrest⟩ := hc
    cases i with
    | zero =>
      simp at he
      subst he
      exact chained_head_parent h _ rest hrest e' (by simpa using he')
    | succ i =>
      exact ih x.entry_hash hrest i e e' (by simpa using he) (by simpa using he')

/-- In a chained list, every entry's stored hash is the recomputed hash. -/
theorem chained_hash_ok {D H : Type} (h : EntryData D H → H) :
    ∀ (l : List (LogEntry D H)) (expected : H), ChainedFrom h expected l →
      ∀ e ∈ l, e.entry_hash = computeHash h e := by
  intro l
  induction l with
  | nil => intro expected _ e he; simp at he
  | cons x rest ih =>
    intro expected hc e he
    obtain ⟨hp, hh, hrest⟩ := hc
    rcases List.mem_cons.mp he with rfl | hmem
    · exact hh
    · exact ih x.entry_hash hrest e hmem

/-- C1: appending N entries to a fresh `MerkleLog` yields a log whose first
entry's parent hash is the genesis constant, each later entry's parent hash
is the previous entry's hash, every entry's stored hash is the hash of its
other fields, and `verify_chain` accepts it (trivially so for zero
entries). -/
theorem c1_append_chain {D H : Type} [DecidableEq H] (h : EntryData D H → H)
    (genesis : H) (inputs : List (String × String × String × D)) :
    verifyChain h genesis (buildLog h genesis inputs).entries = none ∧
    (buildLog h genesis inputs).entries.length = inputs.length ∧
    (∀ e₀, (buildLog h genesis inputs).entries[0]? = some e₀ →
      e₀.parent_hash = genesis) ∧
    (∀ (i : Nat) (e e' : LogEntry D H),
      (buildLog h genesis inputs).entries[i]? = some e →
      (buildLog h genesis inputs).entries[i+1]? = some e' →
      e'.parent_hash = e.entry_hash) ∧
    (∀ e ∈ (buildLog h genesis inputs).entries, e.entry_hash = computeHash h e) := by
  have hinv := buildLog_invariant h genesis inputs (emptyLog D H) trivial rfl
  obtain ⟨hchain, _, hlen⟩ := hinv
  refine ⟨verifyFrom_of_chained h _ genesis 0 hchain, by simpa [buildLog, emptyLog] using hlen,
    fun e₀ h0 => chained_head_parent h genesis _ hchain e₀ h0,
    fun i e e' he he' => chained_consecutive h _ genesis hchain i e e' he he',
    fun e he => chained_hash_ok h _ genesis hchain e he⟩

/-- A convenient dummy entry over plain `Nat` hashes. -/
def natDummyEntry : LogEntry Nat Nat :=
  { entry_id := "", timestamp := "", event_type := "", data := 0,
    parent_hash := 0, entry_hash := 0 }

/-- C1 witness: the chain properties at a concrete two-entry log with a
concrete hash function. -/
theorem c1_append_chain_witness :
    verifyChain (fun _ => (37 : Nat)) 0
      (buildLog (fun _ => (37 : Nat)) 0 [("e1", "t1", "ev1", (1 : Nat)),
        ("e2", "t2", "ev2", 2)]).entries = none ∧
    ((buildLog (fun _ => (37 : Nat)) 0 [("e1", "t1", "ev1", (1 : Nat)),
        ("e2", "t2", "ev2", 2)]).entries.getD 0 natDummyEntry).parent_hash = 0 ∧
    ((buildLog (fun _ => (37 : Nat)) 0 [("e1", "t1", "ev1", (1 : Nat)),
        ("e2", "t2", "ev2", 2)]).entries.getD 1 natDummyEntry).parent_hash
      = ((buildLog (fun _ => (37 : Nat)) 0 [("e1", "t1", "ev1", (1 : Nat)),
        ("e2", "t2", "ev2", 2)]).entries.getD 0 natDummyEntry).entry_hash := by
  have T := c1_append_chain (fun _ => (37 : Nat)) 0
    [("e1", "t1", "ev1", (1 : Nat)), ("e2", "t2", "ev2", 2)]
  exact ⟨T.1, T.2.2.1 _ (by decide), T.2.2.2.1 0 _ _ (by decide) (by decide)⟩

/-- The hashed field tuples of two entries differing in a core field (all
but `entry_hash`) are distinct, so an injective hash tells them apart. -/
theorem computeHash_ne_of_core_diff {D H : Type} (h : EntryData D H → H)
    (hinj : Function.Injective h) (e e' : LogEntry D H)
    (hdiff : (e'.entry_id ≠ e.entry_id ∧ e'.timestamp = e.timestamp ∧
        e'.event_type = e.event_type ∧ e'.data = e.data ∧ e'.parent_hash = e.parent_hash) ∨
      (e'.entry_id = e.entry_id ∧ e'.timestamp ≠ e.timestamp ∧
        e'.event_type = e.event_type ∧ e'.data = e.data ∧ e'.parent_hash = e.parent_hash) ∨
      (e'.entry_id = e.entry_id ∧ e'.timestamp = e.timestamp ∧
        e'.event_type ≠ e.event_type ∧ e'.data = e.data ∧ e'.parent_hash = e.parent_hash) ∨
      (e'.entry_id = e.entry_id ∧ e'.timestamp = e.timestamp ∧
        e'.event_type = e.event_type ∧ e'.data ≠ e.data ∧ e'.parent_hash = e.parent_hash)) :
    computeHash h e' ≠ computeHash h e := by
  intro hEq
  have h5 := hinj hEq
  have h1 : e'.entry_id = e.entry_id := congrArg (fun t => t.1) h5
  have h2 : e'.timestamp = e.timestamp := congrArg (fun t => t.2.1) h5
  have h3 : e'.event_type = e.event_type := congrArg (fun t => t.2.2.1) h5
  have h4 : e'.data = e.data := congrArg (fun t => t.2.2.2.1) h5
  rcases hdiff with ⟨hne, _⟩ | ⟨_, hne, _⟩ | ⟨_, _, hne, _⟩ | ⟨_, _, _, hne, _⟩
  exacts [hne h1, hne h2, hne h3, hne h4]

/-- A single-field mutation of the entry at index `i` of a well-chained
list is caught by the verification replay, at exactly entry `idx + i + 1`
(1-based from the replay's starting index). -/
theorem verifyFrom_detects_mutation {D H : Type} [DecidableEq H]
    (h : EntryData D H → H) (hinj : Function.Injective h) :
    ∀ (l : List (LogEntry D H)) (expected : H) (idx i : Nat)
      (e e' : LogEntry D H), ChainedFrom h expected l → l[i]? = some e →
      DiffersInOneField e e' →
      ∃ err, verifyFrom h expected idx (l.set i e') = some err ∧
        err.entryNumber = idx + i + 1 := by
  intro l
  induction l with
  | nil => intro expected idx i e e' _ he; simp at he
  | cons x rest ih =>
    intro expected idx i e e' hc he hdiff
    obtain ⟨hxp, hxh, hrest⟩ := hc
    cases i with
    | zero =>
      simp only [List.getElem?_cons_zero, Option.some.injEq] at he
      subst he
      simp only [List.set_cons_zero]
      by_cases hpar : e'.parent_hash = expected
      · -- the parent link still matches, so the hash recomputation differs
        have hhash : computeHash h e' ≠ e'.entry_hash := by
          rcases hdiff with hcase | hcase | hcase | hcase | hcase | hcase
          · rw [hcase.2.2.2.2.2, hxh]
            exact computeHash_ne_of_core_diff h hinj x e' (Or.inl
              ⟨hcase.1, hcase.2.1, hcase.2.2.1, hcase.2.2.2.1, hcase.2.2.2.2.1⟩)
          · rw [hcase.2.2.2.2.2, hxh]
            exact computeHash_ne_of_core_diff h hinj x e' (Or.inr (Or.inl
              ⟨hcase.1, hcase.2.1, hcase.2.2.1, hcase.2.2.2.1, hcase.2.2.2.2.1⟩))
          · rw [hcase.2.2.2.2.2, hxh]
            exact computeHash_ne_of_core_diff h hinj x e' (Or.inr (Or.inr (Or.inl
              ⟨hcase.1, hcase.2.1, hcase.2.2.1, hcase.2.2.2.1, hcase.2.2.2.2.1⟩)))
          · rw [hcase.2.2.2.2.2, hxh]
            exact computeHash_ne_of_core_diff h hinj x e' (Or.inr (Or.inr (Or.inr
              ⟨hcase.1, hcase.2.1, hcase.2.2.1, hcase.2.2.2.1, hcase.2.2.2.2.1⟩)))
          · -- parent mutated but hpar says it still equals expected: contradiction
            exact absurd (hxp ▸ hpar) hcase.2.2.2.2.1
          · -- entry_hash mutated: recomputation gives the old, correct hash
            have heq : computeHash h e' = computeHash h x := by
              simp only [computeHash, hcase.1, hcase.2.1, hcase.2.2.1,
                hcase.2.2.2.1, hcase.2.2.2.2.1]
            rw [heq, ← hxh]
            exact fun hcontra => hcase.2.2.2.2.2 hcontra.symm
        refine ⟨.hashMismatch (idx + 1), ?_, by simp [VerifyError.entryNumber]⟩
        simp only [verifyFrom]
        rw [if_neg (by simp [hpar]), if_pos hhash]
      · refine ⟨.chainBreak (idx + 1), ?_, by simp [VerifyError.entryNumber]⟩
        simp only [verifyFrom]
        rw [if_pos hpar]
    | succ i =>
      simp only [List.getElem?_cons_succ] at he
      simp only [List.set_cons_succ]
      obtain ⟨err, herr, hnum⟩ := ih x.entry_hash (idx + 1) i e e' hrest he hdiff
      refine ⟨err, ?_, by omega⟩
      simp only [verifyFrom]
      rw [if_neg (by simp [hxp]), if_neg (by simp [hxh]), herr]

/-- C2: mutating any single stored field of any one entry of a log built by
appends makes `verify_chain` fail with a reason naming that entry's
(1-based) position — given that SHA-256 is collision-free (injectivity of
the abstract hash). -/
theorem c2_mutation_detected {D H : Type} [DecidableEq H] (h : EntryData D H → H)
    (genesis : H) (hinj : Function.Injective h)
    (inputs : List (String × String × String × D)) (i : Nat)
    (e e' : LogEntry D H)
    (he : (buildLog h genesis inputs).entries[i]? = some e)
    (hdiff : DiffersInOneField e e') :
    ∃ err, verifyChain h genesis
        ((buildLog h genesis inputs).entries.set i e') = some err ∧
      err.entryNumber = i + 1 := by
  have hchain := (buildLog_invariant h genesis inputs (emptyLog D H) trivial rfl).1
  obtain ⟨err, herr, hnum⟩ :=
    verifyFrom_detects_mutation h hinj (buildLog h genesis inputs).entries genesis 0 i
      e e' hchain he hdiff
  exact ⟨err, herr, by omega⟩

/-- The free hash on `HashVal` is injective (constructor injectivity). -/
theorem freeHash_injective {D : Type} : Function.Injective (@freeHash D) := by
  intro a b hab
  obtain ⟨a1, a2, a3, a4, a5⟩ := a
  obtain ⟨b1, b2, b3, b4, b5⟩ := b
  simp only [freeHash, HashVal.node.injEq] at hab
  obtain ⟨h1, h2, h3, h4, h5⟩ := hab
  simp [h1, h2, h3, h4, h5]

/-- C2 witness: mutating the `data` field of the second of two appended
entries is detected at entry position 2. -/
theorem c2_mutation_detected_witness :
    (buildLog freeHash HashVal.genesis mutationInputs).entries[1]? = some secondEntry ∧
    DiffersInOneField secondEntry mutatedSecondEntry ∧
    ∃ err, verifyChain freeHash HashVal.genesis
        ((buildLog freeHash HashVal.genesis mutationInputs).entries.set 1
          mutatedSecondEntry) = some err ∧
      err.entryNumber = 1 + 1 :=
  ⟨by decide, by decide,
    c2_mutation_detected freeHash HashVal.genesis freeHash_injective mutationInputs 1
      secondEntry mutatedSecondEntry (by decide) (by decide)⟩

/-! ## C7 — recipe retrieval -/

/-- `orderedInsert` commutes with a map that preserves the comparison. -/
theorem orderedInsert_map_congr {α : Type} (r : α → α → Prop) [DecidableRel r]
    (φ : α → α) (hφ : ∀ a b, r (φ a) (φ b) ↔ r a b) (a : α) (l : List α) :
    List.orderedInsert r (φ a) (l.map φ) = (List.orderedInsert r a l).map φ := by
  induction l with
  | nil => rfl
  | cons b t ih =>
    simp only [List.map_cons, List.orderedInsert]
    by_cases h : r a b
    · rw [if_pos ((hφ a b).mpr h), if_pos h, List.map_cons, List.map_cons]
    · rw [if_neg (fun hc => h ((hφ a b).mp hc)), if_neg h, List.map_cons, ih]

/-- `insertionSort` commutes with a map that preserves the comparison. -/
theorem insertionSort_map_congr {α : Type} (r : α → α → Prop) [DecidableRel r]
    (φ : α → α) (hφ : ∀ a b, r (φ a) (φ b) ↔ r a b) (l : List α) :
    List.insertionSort r (l.map φ) = (List.insertionSort r l).map φ := by
  induction l with
  | nil => rfl
  | cons b t ih =>
    simp only [List.map_cons, List.insertionSort, ih]
    exact orderedInsert_map_congr r φ hφ b (List.insertionSort r t)

/-- Rewriting the `success_count`/`last_used_at` fields of every stored
recipe commutes with retrieval: the filter and the ranking key read neither
field. -/
theorem retrieveRecipes_map_meta (stored : List Recipe) (fp : String)
    (queryEmb : List ℚ) (topK : Nat) (f : Recipe → Nat) (g : Recipe → String) :
    retrieveRecipes (stored.map (fun r =>
        { r with success_count := f r, last_used_at := g r })) fp queryEmb topK
      = (retrieveRecipes stored fp queryEmb topK).map (fun r =>
        { r with success_count := f r, last_used_at := g r }) := by
  simp only [retrieveRecipes]
  rw [List.filter_map, List.map_map]
  rw [show ((fun r : Recipe => (cosineSimScore queryEmb r.intent_embedding, r)) ∘
      (fun r : Recipe => { r with success_count := f r, last_used_at := g r }))
    = ((fun p : ℚ × Recipe =>
        (p.1, { p.2 with success_count := f p.2, last_used_at := g p.2 })) ∘
      (fun r : Recipe => (cosineSimScore queryEmb r.intent_embedding, r))) from rfl]
  rw [← List.map_map]
  rw [insertionSort_map_congr (fun x y : ℚ × Recipe => x.1 ≥ y.1)
    (fun p : ℚ × Recipe =>
      (p.1, { p.2 with success_count := f p.2, last_used_at := g p.2 }))
    (fun a b => Iff.rfl)]
  rw [← List.map_take, List.map_map, List.map_map]
  rfl

/-- C7: `retrieve_recipes` returns only recipes whose stored fingerprint
equals the query fingerprint, ranked by similarity against the query
embedding in descending order and truncated to `top_k`; similarity
involving a zero-norm vector is 0; and the ranking ignores `success_count`
and recency (`last_used_at`): rewriting those fields commutes with
retrieval. -/
theorem c7_retrieve_recipes (stored : List Recipe) (fp : String)
    (queryEmb : List ℚ) (topK : Nat) :
    (∀ r ∈ retrieveRecipes stored fp queryEmb topK, r.schema_fingerprint = fp) ∧
    (retrieveRecipes stored fp queryEmb topK).length
      = min topK (stored.filter (fun r => r.schema_fingerprint == fp)).length ∧
    List.Pairwise (fun a b : Recipe =>
      cosineSimScore queryEmb b.intent_embedding
        ≤ cosineSimScore queryEmb a.intent_embedding)
      (retrieveRecipes stored fp queryEmb topK) ∧
    (∀ a b : List ℚ, normSq a = 0 ∨ normSq b = 0 → cosineSimScore a b = 0) ∧
    (∀ (f : Recipe → Nat) (g : Recipe → String),
      retrieveRecipes (stored.map (fun r =>
          { r with success_count := f r, last_used_at := g r })) fp queryEmb topK
        = (retrieveRecipes stored fp queryEmb topK).map (fun r =>
          { r with success_count := f r, last_used_at := g r })) := by
  have hmemS : ∀ p ∈ List.insertionSort (fun x y : ℚ × Recipe => x.1 ≥ y.1)
      ((stored.filter (fun r => r.schema_fingerprint == fp)).map
        (fun r => (cosineSimScore queryEmb r.intent_embedding, r))),
      p.1 = cosineSimScore queryEmb p.2.intent_embedding ∧ p.2.schema_fingerprint = fp := by
    intro p hp
    rw [List.mem_insertionSort] at hp
    obtain ⟨rec, hrec, rfl⟩ := List.mem_map.mp hp
    have := List.of_mem_filter hrec
    exact ⟨rfl, by simpa using this⟩
  refine ⟨?_, ?_, ?_, ?_, ?_⟩
  · intro r hr
    obtain ⟨p, hp, rfl⟩ := List.mem_map.mp hr
    exact (hmemS p (List.mem_of_mem_take hp)).2
  · simp only [retrieveRecipes, List.length_map, List.length_take]
    rw [(List.perm_insertionSort _ _).length_eq, List.length_map]
  · haveI : IsTotal (ℚ × Recipe) (fun x y => x.1 ≥ y.1) :=
      ⟨fun a b => le_total b.1 a.1⟩
    haveI : IsTrans (ℚ × Recipe) (fun x y => x.1 ≥ y.1) :=
      ⟨fun _ _ _ hab hbc => le_trans hbc hab⟩
    have hsorted := List.sorted_insertionSort (fun x y : ℚ × Recipe => x.1 ≥ y.1)
      ((stored.filter (fun r => r.schema_fingerprint == fp)).map
        (fun r => (cosineSimScore queryEmb r.intent_embedding, r)))
    have htake := List.Pairwise.sublist (List.take_sublist topK _) hsorted
    rw [retrieveRecipes]
    rw [List.pairwise_map]
    refine List.Pairwise.imp_of_mem ?_ htake
    intro a b ha hb hab
    have haS := hmemS a (List.mem_of_mem_take ha)
    have hbS := hmemS b (List.mem_of_mem_take hb)
    rw [← haS.1, ← hbS.1]
    exact hab
  · intro a b hz
    simp [cosineSimScore, hz]
  · intro f g
    exact retrieveRecipes_map_meta stored fp queryEmb topK f g

/-- C7 witness: the ranking-order clause at a concrete store, and the
zero-norm clause at a concrete zero vector. -/
theorem c7_retrieve_recipes_witness :
    cosineSimScore [(0 : ℚ), 0] [3, 4] = 0 :=
  (c7_retrieve_recipes [] "fp" [] 0).2.2.2.1 [(0 : ℚ), 0] [3, 4]
    (Or.inl (by simp [normSq, dotProduct]))

/-! ## C6 — schema fingerprint -/

/-- `pyJoin` over a cons with nonempty tail. -/
theorem pyJoin_cons_of_ne_nil (sep : List Char) (x : List Char)
    (l : List (List Char)) (h : l ≠ []) :
    pyJoin sep (x :: l) = x ++ sep ++ pyJoin sep l := by
  cases l with
  | nil => exact absurd rfl h
  | cons y t => rfl

/-- Length of a join. -/
theorem pyJoin_length (sep : List Char) :
    ∀ l : List (List Char),
      (pyJoin sep l).length = (l.map List.length).sum + sep.length * (l.length - 1)
  | [] => by simp [pyJoin]
  | [x] => by simp [pyJoin]
  | x :: y :: xs => by
    have hrec := pyJoin_length sep (y :: xs)
    rw [pyJoin_cons_of_ne_nil sep x (y :: xs) (by simp)]
    simp only [List.length_append, hrec, List.map_cons, List.sum_cons, List.length_cons,
      Nat.add_sub_cancel]
    ring

/-- Two joins of part lists that agree everywhere except at one aligned
position differ. -/
theorem pyJoin_ne_of_mid_ne (sep : List Char) :
    ∀ (pre : List (List Char)) (a b : List Char) (post : List (List Char)),
      a ≠ b →
      pyJoin sep (pre ++ a :: post) ≠ pyJoin sep (pre ++ b :: post) := by
  intro pre
  induction pre with
  | nil =>
    intro a b post hne
    by_cases hlen : a.length = b.length
    · cases post with
      | nil => simpa [pyJoin] using hne
      | cons p ps =>
        rw [List.nil_append, List.nil_append,
          pyJoin_cons_of_ne_nil sep a (p :: ps) (by simp),
          pyJoin_cons_of_ne_nil sep b (p :: ps) (by simp)]
        intro hEq
        rw [List.append_assoc, List.append_assoc] at hEq
        exact hne (List.append_inj hEq hlen).1
    · intro hEq
      have := congrArg List.length hEq
      rw [pyJoin_length, pyJoin_length] at this
      simp [List.map_append, List.length_append] at this
      omega
  | cons q pre' ih =>
    intro a b post hne
    rw [List.cons_append, List.cons_append,
      pyJoin_cons_of_ne_nil sep q (pre' ++ a :: post) (by simp),
      pyJoin_cons_of_ne_nil sep q (pre' ++ b :: post) (by simp)]
    intro hEq
    exact ih a b post hne (List.append_cancel_left hEq)

/-- Splitting at the first comma of two concatenations with comma-free
heads: the heads and tails coincide. -/
theorem commafree_split :
    ∀ (x y u v : List Char), x ++ ',' :: u = y ++ ',' :: v →
      ',' ∉ x → ',' ∉ y → x = y ∧ u = v := by
  intro x
  induction x with
  | nil =>
    intro y u v hEq hx hy
    cases y with
    | nil => simpa using hEq
    | cons d y' =>
      simp only [List.nil_append, List.cons_append, List.cons.injEq] at hEq
      exact absurd (show (',' ∈ d :: y') by rw [← hEq.1]; exact List.mem_cons_self _ _) hy
  | cons c x' ih =>
    intro y u v hEq hx hy
    cases y with
    | nil =>
      simp only [List.cons_append, List.nil_append, List.cons.injEq] at hEq
      exact absurd (show (',' ∈ c :: x') by rw [hEq.1]; exact List.mem_cons_self _ _) hx
    | cons d y' =>
      simp only [List.cons_append, List.cons.injEq] at hEq
      obtain ⟨rfl, hrest⟩ := hEq
      obtain ⟨h1, h2⟩ := ih y' u v hrest (fun hm => hx (List.mem_cons_of_mem _ hm))
        (fun hm => hy (List.mem_cons_of_mem _ hm))
      exact ⟨by rw [h1], h2⟩

/-- On nonempty lists of comma-free parts, joining with `","` is
injective. -/
theorem pyJoin_comma_injective :
    ∀ (l₁ l₂ : List (List Char)),
      (∀ x ∈ l₁, ',' ∉ x) → (∀ x ∈ l₂, ',' ∉ x) → l₁ ≠ [] → l₂ ≠ [] →
      pyJoin [','] l₁ = pyJoin [','] l₂ → l₁ = l₂ := by
  intro l₁
  induction l₁ with
  | nil => intro l₂ _ _ h1; exact absurd rfl h1
  | cons x t ih =>
    intro l₂ hc1 hc2 _ h2 hEq
    cases l₂ with
    | nil => exact absurd rfl h2
    | cons y s =>
      cases t with
      | nil =>
        cases s with
        | nil => simpa [pyJoin] using hEq
        | cons z s' =>
          rw [show pyJoin [','] [x] = x from rfl,
            pyJoin_cons_of_ne_nil [','] y (z :: s') (by simp)] at hEq
          exact absurd (hEq ▸ (by simp : ',' ∈ y ++ [','] ++ pyJoin [','] (z :: s')))
            (hc1 x (by simp))
      | cons w t' =>
        cases s with
        | nil =>
          rw [show pyJoin [','] [y] = y from rfl,
            pyJoin_cons_of_ne_nil [','] x (w :: t') (by simp)] at hEq
          exact absurd (hEq ▸ (by simp : ',' ∈ x ++ [','] ++ pyJoin [','] (w :: t')))
            (hc2 y (by simp))
        | cons z s' =>
          rw [pyJoin_cons_of_ne_nil [','] x (w :: t') (by simp),
            pyJoin_cons_of_ne_nil [','] y (z :: s') (by simp)] at hEq
          simp only [List.append_assoc, List.singleton_append] at hEq
          obtain ⟨rfl, htails⟩ := commafree_split x y _ _ hEq
            (hc1 x (by simp)) (hc2 y (by simp))
          exact congrArg (x :: ·) (ih (z :: s')
            (fun a ha => hc1 a (List.mem_cons_of_mem _ ha))
            (fun a ha => hc2 a (List.mem_cons_of_mem _ ha)) (by simp) (by simp) htails)

/-- Looking up a present column name in a duplicate-free schema returns its
dtype. -/
theorem lookupDtype_of_mem :
    ∀ (cols : List (List Char × List Char)) (n t : List Char),
      (n, t) ∈ cols → (cols.map Prod.fst).Nodup → lookupDtype cols n = t := by
  intro cols
  induction cols with
  | nil => intro n t hmem; simp at hmem
  | cons p rest ih =>
    intro n t hmem hnd
    rcases List.mem_cons.mp hmem with rfl | hmem'
    · simp [lookupDtype]
    · have hne : p.1 ≠ n := by
        intro hpn
        have : n ∈ rest.map Prod.fst := List.mem_map.mpr ⟨(n, t), hmem', rfl⟩
        rw [List.map_cons, List.nodup_cons] at hnd
        exact hnd.1 (hpn ▸ this)
      have hnd' : (rest.map Prod.fst).Nodup := by
        rw [List.map_cons, List.nodup_cons] at hnd
        exact hnd.2
      simp only [lookupDtype, List.find?]
      rw [show (p.1 == n) = false from beq_eq_false_iff_ne.mpr hne]
      exact ih n t hmem' hnd'

/-- Looking up an absent column name returns the empty default. -/
theorem lookupDtype_of_not_mem :
    ∀ (cols : List (List Char × List Char)) (n : List Char),
      n ∉ cols.map Prod.fst → lookupDtype cols n = [] := by
  intro cols
  induction cols with
  | nil => intro n _; rfl
  | cons p rest ih =>
    intro n hn
    simp only [List.map_cons, List.mem_cons, not_or] at hn
    simp only [lookupDtype, List.find?]
    rw [show (p.1 == n) = false from beq_eq_false_iff_ne.mpr (fun hc => hn.1 hc.symm)]
    exact ih n hn.2

/-- Lookup agrees across permutations of a duplicate-free schema. -/
theorem lookupDtype_perm (cols₁ cols₂ : List (List Char × List Char))
    (hp : List.Perm cols₁ cols₂) (hnd : (cols₁.map Prod.fst).Nodup)
    (n : List Char) : lookupDtype cols₁ n = lookupDtype cols₂ n := by
  have hnd₂ : (cols₂.map Prod.fst).Nodup := ((hp.map Prod.fst).nodup_iff).mp hnd
  by_cases hn : n ∈ cols₁.map Prod.fst
  · obtain ⟨⟨n', t⟩, hmem, hfst⟩ := List.mem_map.mp hn
    cases hfst
    rw [lookupDtype_of_mem cols₁ _ t hmem hnd,
      lookupDtype_of_mem cols₂ _ t (hp.mem_iff.mp hmem) hnd₂]
  · rw [lookupDtype_of_not_mem cols₁ n hn,
      lookupDtype_of_not_mem cols₂ n (fun hc => hn (((hp.map Prod.fst).mem_iff).mpr hc))]

/-- Replacing the entry at index `i` does not change lookups of names other
than the old and the new one. -/
theorem lookupDtype_set_other :
    ∀ (cols : List (List Char × List Char)) (i : Nat) (m t' x : List Char),
      x ≠ m → (∀ n t, cols[i]? = some (n, t) → x ≠ n) →
      lookupDtype (cols.set i (m, t')) x = lookupDtype cols x := by
  intro cols
  induction cols with
  | nil => intro i m t' x _ _; simp
  | cons p rest ih =>
    intro i m t' x hxm hxn
    cases i with
    | zero =>
      have hxp : x ≠ p.1 := fun hc => hxn p.1 p.2 (by simp) hc
      simp only [List.set_cons_zero, lookupDtype, List.find?]
      rw [show (m == x) = false from beq_eq_false_iff_ne.mpr (fun hc => hxm hc.symm),
        show (p.1 == x) = false from beq_eq_false_iff_ne.mpr (fun hc => hxp hc.symm)]
    | succ i =>
      simp only [List.set_cons_succ, lookupDtype, List.find?]
      cases hpx : p.1 == x with
      | true => rfl
      | false => exact ih i m t' x hxm (fun n t hc => hxn n t (by simpa using hc))

/-- The schema items of permuted duplicate-free schemas coincide. -/
theorem schemaItems_perm (cols₁ cols₂ : List (List Char × List Char))
    (hp : List.Perm cols₁ cols₂) (hnd : (cols₁.map Prod.fst).Nodup) :
    schemaItems true cols₁ = schemaItems true cols₂ := by
  unfold schemaItems
  have hnames : List.insertionSort (· ≤ ·) (cols₁.map Prod.fst)
      = List.insertionSort (· ≤ ·) (cols₂.map Prod.fst) := by
    refine List.eq_of_perm_of_sorted ?_ (List.sorted_insertionSort _ _)
      (List.sorted_insertionSort _ _)
    exact (List.perm_insertionSort _ _).trans ((hp.map Prod.fst).trans
      (List.perm_insertionSort _ _).symm)
  rw [hnames]
  exact List.map_congr_left (fun n _ => by rw [lookupDtype_perm cols₁ cols₂ hp hnd n])

/-- Every schema item of a comma-free duplicate-free schema is
comma-free. -/
theorem schemaItems_commafree (cols : List (List Char × List Char))
    (hnd : (cols.map Prod.fst).Nodup)
    (hcf : ∀ p ∈ cols, ',' ∉ p.1 ∧ ',' ∉ normalizeType p.2) :
    ∀ x ∈ schemaItems true cols, ',' ∉ x := by
  intro x hx
  unfold schemaItems at hx
  obtain ⟨n, hn, rfl⟩ := List.mem_map.mp hx
  rw [List.mem_insertionSort] at hn
  obtain ⟨⟨n', t⟩, hmem, hfst⟩ := List.mem_map.mp hn
  cases hfst
  intro hcomma
  rcases List.mem_append.mp hcomma with hin | hin
  · exact (hcf _ hmem).1 hin
  · rcases List.mem_cons.mp hin with hc | hin'
    · exact absurd hc.symm (by decide)
    · rw [if_pos rfl, lookupDtype_of_mem cols _ t hmem hnd] at hin'
      exact (hcf _ hmem).2 hin'

/-- The schema items are a permutation of the per-column encodings in
declaration order. -/
theorem schemaItems_perm_encode (cols : List (List Char × List Char)) :
    List.Perm (schemaItems true cols)
      ((cols.map Prod.fst).map (fun n =>
        n ++ ':' :: normalizeType (lookupDtype cols n))) := by
  unfold schemaItems
  exact (List.perm_insertionSort _ _).map _

/-- A nonempty schema has a nonempty item list. -/
theorem schemaItems_ne_nil (cols : List (List Char × List Char))
    (h : cols ≠ []) : schemaItems true cols ≠ [] := by
  unfold schemaItems
  intro hc
  rw [List.map_eq_nil] at hc
  have := (List.perm_insertionSort (· ≤ ·) (cols.map Prod.fst)).length_eq
  rw [hc] at this
  simp only [List.length_nil, List.length_map] at this
  exact h (List.length_eq_zero.mp this.symm)

/-- An indexable element is a member. -/
theorem mem_of_getElemQ {α : Type} (l : List α) (i : Nat) (a : α)
    (h : l[i]? = some a) : a ∈ l := by
  obtain ⟨hlt, rfl⟩ := List.getElem?_eq_some.mp h
  exact List.getElem_mem hlt

/-- An indexable position is in range. -/
theorem lt_of_getElemQ {α : Type} (l : List α) (i : Nat) (a : α)
    (h : l[i]? = some a) : i < l.length :=
  (List.getElem?_eq_some.mp h).1

/-- Reading back the element just set. -/
theorem getElemQ_set_self {α : Type} (l : List α) (i : Nat) (a : α)
    (h : i < l.length) : (l.set i a)[i]? = some a := by
  simp [List.getElem?_set_self', List.getElem?_eq_getElem h]

/-- Setting an index to the element already there changes nothing. -/
theorem list_set_self {α : Type} : ∀ (l : List α) (i : Nat) (a : α),
    l[i]? = some a → l.set i a = l := by
  intro l
  induction l with
  | nil => intro i a h; simp at h
  | cons x t ih =>
    intro i a h
    cases i with
    | zero => simp at h; simp [h]
    | succ i => simp at h; simp [ih i a h]

/-- `schemaItems` with normalization enabled, as a single map. -/
theorem schemaItems_true_eq (cols : List (List Char × List Char)) :
    schemaItems true cols = (List.insertionSort (· ≤ ·) (cols.map Prod.fst)).map
      (fun x => x ++ ':' :: normalizeType (lookupDtype cols x)) := by
  unfold schemaItems
  simp

/-- Changing the (normalized) dtype of one column of a duplicate-free
schema changes the joined schema string. -/
theorem schemaStr_ne_type_change (cols : List (List Char × List Char))
    (i : Nat) (n t t' : List Char) (hnd : (cols.map Prod.fst).Nodup)
    (hi : cols[i]? = some (n, t)) (hnt : normalizeType t ≠ normalizeType t') :
    schemaStr true (cols.set i (n, t')) ≠ schemaStr true cols := by
  have hnamei : (cols.map Prod.fst)[i]? = some n := by
    rw [List.getElem?_map, hi]
    rfl
  have hmapset : (cols.set i (n, t')).map Prod.fst = cols.map Prod.fst := by
    rw [List.map_set]
    exact list_set_self _ i n hnamei
  have hnmem : n ∈ List.insertionSort (· ≤ ·) (cols.map Prod.fst) :=
    (List.mem_insertionSort _).mpr (mem_of_getElemQ _ i n hnamei)
  have hsortnd : (List.insertionSort (· ≤ ·) (cols.map Prod.fst)).Nodup :=
    (List.perm_insertionSort _ _).nodup_iff.mpr hnd
  obtain ⟨A, B, hAB⟩ := List.append_of_mem hnmem
  have hnAB : n ∉ A ++ B := by
    rw [hAB, List.nodup_middle, List.nodup_cons] at hsortnd
    exact hsortnd.1
  have hlookup_other : ∀ x, x ≠ n →
      lookupDtype (cols.set i (n, t')) x = lookupDtype cols x := by
    intro x hx
    refine lookupDtype_set_other cols i n t' x hx ?_
    intro n₀ t₀ h₀
    rw [hi] at h₀
    injection h₀ with h₀
    injection h₀ with h1 h2
    exact h1 ▸ hx
  have hnd' : ((cols.set i (n, t')).map Prod.fst).Nodup := hmapset ▸ hnd
  have hlookup_n : lookupDtype (cols.set i (n, t')) n = t' :=
    lookupDtype_of_mem _ n t' (mem_of_getElemQ _ i _
      (getElemQ_set_self cols i (n, t') (lt_of_getElemQ cols i _ hi))) hnd'
  have hlookup_n_old : lookupDtype cols n = t :=
    lookupDtype_of_mem cols n t (mem_of_getElemQ cols i _ hi) hnd
  have hitems' : schemaItems true (cols.set i (n, t'))
      = (A.map (fun x => x ++ ':' :: normalizeType (lookupDtype cols x)))
        ++ (n ++ ':' :: normalizeType t')
        :: (B.map (fun x => x ++ ':' :: normalizeType (lookupDtype cols x))) := by
    rw [schemaItems_true_eq, hmapset, hAB, List.map_append, List.map_cons]
    congr 1
    · refine List.map_congr_left (fun x hx => ?_)
      rw [hlookup_other x (fun hc => hnAB (hc ▸ List.mem_append_left B hx))]
    · congr 1
      · rw [hlookup_n]
      · refine List.map_congr_left (fun x hx => ?_)
        rw [hlookup_other x (fun hc => hnAB (hc ▸ List.mem_append_right A hx))]
  have hitems : schemaItems true cols
      = (A.map (fun x => x ++ ':' :: normalizeType (lookupDtype cols x)))
        ++ (n ++ ':' :: normalizeType t)
        :: (B.map (fun x => x ++ ':' :: normalizeType (lookupDtype cols x))) := by
    rw [schemaItems_true_eq, hAB, List.map_append, List.map_cons, hlookup_n_old]
  unfold schemaStr
  rw [hitems', hitems]
  refine pyJoin_ne_of_mid_ne [','] _ _ _ _ ?_
  intro hc
  refine hnt ?_
  have hcc := List.append_cancel_left (hc : n ++ ':' :: normalizeType t'
    = n ++ ':' :: normalizeType t)
  injection hcc with _ h2
  exact h2.symm

/-- Two cons lists with the same tail that are permutations have equal
heads. -/
theorem cons_perm_cons_same_tail {α : Type} [DecidableEq α] (a b : α) (l : List α)
    (h : List.Perm (a :: l) (b :: l)) : a = b := by
  by_contra hne
  have hcount := h.count_eq a
  rw [List.count_cons_self, List.count_cons_of_ne hne] at hcount
  omega

/-- Renaming one column of a duplicate-free, comma-free schema to a fresh
comma-free name changes the joined schema string. -/
theorem schemaStr_ne_name_change (cols : List (List Char × List Char))
    (i : Nat) (n t m : List Char) (hnd : (cols.map Prod.fst).Nodup)
    (hi : cols[i]? = some (n, t)) (hm : m ∉ cols.map Prod.fst) (hmn : m ≠ n)
    (hcf : ∀ p ∈ cols, ',' ∉ p.1 ∧ ',' ∉ normalizeType p.2) (hcfm : ',' ∉ m) :
    schemaStr true (cols.set i (m, t)) ≠ schemaStr true cols := by
  intro hEq
  have hilt : i < cols.length := lt_of_getElemQ cols i _ hi
  have hset : cols.set i (m, t) = cols.take i ++ (m, t) :: cols.drop (i + 1) :=
    List.set_eq_take_cons_drop _ hilt
  have hcols : cols = cols.take i ++ (n, t) :: cols.drop (i + 1) := by
    conv_lhs => rw [← list_set_self cols i (n, t) hi]
    exact List.set_eq_take_cons_drop _ hilt
  have hnames : cols.map Prod.fst
      = (cols.take i).map Prod.fst ++ n :: (cols.drop (i + 1)).map Prod.fst := by
    conv_lhs => rw [hcols]
    rw [List.map_append, List.map_cons]
  have hnames' : (cols.set i (m, t)).map Prod.fst
      = (cols.take i).map Prod.fst ++ m :: (cols.drop (i + 1)).map Prod.fst := by
    rw [hset, List.map_append, List.map_cons]
  have hndPQ : n ∉ (cols.take i).map Prod.fst ++ (cols.drop (i + 1)).map Prod.fst ∧
      ((cols.take i).map Prod.fst ++ (cols.drop (i + 1)).map Prod.fst).Nodup := by
    have := hnd
    rw [hnames, List.nodup_middle, List.nodup_cons] at this
    exact this
  have hmPQ : m ∉ (cols.take i).map Prod.fst ++ (cols.drop (i + 1)).map Prod.fst := by
    intro hc
    refine hm ?_
    rw [hnames]
    rcases List.mem_append.mp hc with hc | hc
    · exact List.mem_append_left _ hc
    · exact List.mem_append_right _ (List.mem_cons_of_mem n hc)
  have hnd' : ((cols.set i (m, t)).map Prod.fst).Nodup := by
    rw [hnames', List.nodup_middle, List.nodup_cons]
    exact ⟨hmPQ, hndPQ.2⟩
  have hmem_m : (m, t) ∈ cols.set i (m, t) :=
    mem_of_getElemQ _ i _ (getElemQ_set_self cols i (m, t) hilt)
  have hcf' : ∀ p ∈ cols.set i (m, t), ',' ∉ p.1 ∧ ',' ∉ normalizeType p.2 := by
    intro p hp
    rw [hset] at hp
    rcases List.mem_append.mp hp with hp | hp
    · exact hcf p (List.mem_of_mem_take hp)
    · rcases List.mem_cons.mp hp with rfl | hp'
      · exact ⟨hcfm, (hcf (n, t) (mem_of_getElemQ cols i _ hi)).2⟩
      · exact hcf p (List.mem_of_mem_drop hp')
  have hcolsne : cols ≠ [] := by
    intro hc
    rw [hc] at hilt
    simp at hilt
  have hsetne : cols.set i (m, t) ≠ [] := by
    intro hc
    have := congrArg List.length hc
    rw [List.length_set] at this
    rw [List.length_eq_zero.mp this] at hilt
    simp at hilt
  have hitems_eq : schemaItems true (cols.set i (m, t)) = schemaItems true cols :=
    pyJoin_comma_injective _ _
      (schemaItems_commafree _ hnd' hcf') (schemaItems_commafree _ hnd hcf)
      (schemaItems_ne_nil _ hsetne) (schemaItems_ne_nil _ hcolsne) hEq
  have hperm : List.Perm
      (((cols.set i (m, t)).map Prod.fst).map (fun x =>
        x ++ ':' :: normalizeType (lookupDtype (cols.set i (m, t)) x)))
      ((cols.map Prod.fst).map (fun x =>
        x ++ ':' :: normalizeType (lookupDtype cols x))) :=
    (schemaItems_perm_encode (cols.set i (m, t))).symm.trans
      (hitems_eq ▸ schemaItems_perm_encode cols)
  have hlookup_other : ∀ x, x ∈ (cols.take i).map Prod.fst ++
        (cols.drop (i + 1)).map Prod.fst →
      lookupDtype (cols.set i (m, t)) x = lookupDtype cols x := by
    intro x hx
    refine lookupDtype_set_other cols i m t x (fun hc => hmPQ (hc ▸ hx)) ?_
    intro n₀ t₀ h₀
    rw [hi] at h₀
    injection h₀ with h₀
    injection h₀ with h1 h2
    exact fun hc => hndPQ.1 (h1 ▸ hc ▸ hx)
  have hlookup_m : lookupDtype (cols.set i (m, t)) m = t :=
    lookupDtype_of_mem _ m t hmem_m hnd'
  have hlookup_n : lookupDtype cols n = t :=
    lookupDtype_of_mem cols n t (mem_of_getElemQ cols i _ hi) hnd
  rw [hnames, hnames', List.map_append, List.map_append, List.map_cons,
    List.map_cons, hlookup_m, hlookup_n] at hperm
  rw [show (((cols.take i).map Prod.fst).map (fun x =>
        x ++ ':' :: normalizeType (lookupDtype (cols.set i (m, t)) x)))
      = (((cols.take i).map Prod.fst).map (fun x =>
        x ++ ':' :: normalizeType (lookupDtype cols x)))
    from List.map_congr_left (fun x hx => by
      rw [hlookup_other x (List.mem_append_left _ hx)])] at hperm
  rw [show (((cols.drop (i + 1)).map Prod.fst).map (fun x =>
        x ++ ':' :: normalizeType (lookupDtype (cols.set i (m, t)) x)))
      = (((cols.drop (i + 1)).map Prod.fst).map (fun x =>
        x ++ ':' :: normalizeType (lookupDtype cols x)))
    from List.map_congr_left (fun x hx => by
      rw [hlookup_other x (List.mem_append_right _ hx)])] at hperm
  have hcancel := (List.perm_append_left_iff _).mp hperm
  have hheads := cons_perm_cons_same_tail _ _ _ hcancel
  have hlen : m.length = n.length := by
    have := congrArg List.length hheads
    simp only [List.length_append] at this
    omega
  exact hmn (List.append_inj hheads hlen).1

/-- C6 is false as stated: renaming the single column `":,a"` of
`collideColsA` to `"a:,"` (same type, other column untouched, names
duplicate-free in both schemas) produces the same joined schema string
`":,a:,:,a:,:"` — the sorted order of the two items flips and the comma
join re-parses — hence the same fingerprint for every hash function,
exhibited here for the identity hash. -/
theorem c6_counterexample :
    computeFingerprint (fun s : List Char => s) true collideColsA none
      = computeFingerprint (fun s : List Char => s) true collideColsB none ∧
    schemaStr true collideColsA = schemaStr true collideColsB ∧
    collideColsA.map Prod.fst ≠ collideColsB.map Prod.fst ∧
    collideColsA.map Prod.snd = collideColsB.map Prod.snd ∧
    collideColsA[1]? = collideColsB[1]? ∧
    (collideColsA.map Prod.fst).Nodup ∧ (collideColsB.map Prod.fst).Nodup := by
  decide

/-- C6 (amended): the fingerprint of a non-empty duplicate-free schema is
invariant under column order, row data and the table name; with a
collision-free hash, changing one column's normalized type always changes
the fingerprint, and renaming one column to a fresh name changes the
fingerprint provided the names and normalized types involved are
comma-free (without that proviso renaming can collide, see the
counterexample). -/
theorem c6_fingerprint_amended {Hash : Type} (hash : List Char → Hash) :
    (∀ (cols₁ cols₂ : List (List Char × List Char)) (tn₁ tn₂ : Option (List Char)),
      List.Perm cols₁ cols₂ → (cols₁.map Prod.fst).Nodup →
      computeFingerprint hash true cols₁ tn₁ = computeFingerprint hash true cols₂ tn₂) ∧
    (∀ (cols : List (List Char × List Char)) (rows₁ rows₂ : List (List (List Char))),
      fingerprintFromDataFrame hash ⟨cols, rows₁⟩
        = fingerprintFromDataFrame hash ⟨cols, rows₂⟩) ∧
    (Function.Injective hash →
      ∀ (cols : List (List Char × List Char)) (i : Nat) (n t t' : List Char),
        (cols.map Prod.fst).Nodup → cols[i]? = some (n, t) →
        normalizeType t ≠ normalizeType t' →
        computeFingerprint hash true (cols.set i (n, t')) none
          ≠ computeFingerprint hash true cols none) ∧
    (Function.Injective hash →
      ∀ (cols : List (List Char × List Char)) (i : Nat) (n t m : List Char),
        (cols.map Prod.fst).Nodup → cols[i]? = some (n, t) →
        m ∉ cols.map Prod.fst → m ≠ n →
        (∀ p ∈ cols, ',' ∉ p.1 ∧ ',' ∉ normalizeType p.2) → ',' ∉ m →
        computeFingerprint hash true (cols.set i (m, t)) none
          ≠ computeFingerprint hash true cols none) := by
  refine ⟨?_, ?_, ?_, ?_⟩
  · intro cols₁ cols₂ tn₁ tn₂ hp hnd
    by_cases hne : cols₁ = []
    · subst hne
      rw [hp.nil_eq]
      rfl
    · have h₂ne : cols₂ ≠ [] := fun hc => hne (hp.trans (hc ▸ List.Perm.refl _)).eq_nil
      unfold computeFingerprint
      rw [if_neg (by simp [List.isEmpty_iff, hne]),
        if_neg (by simp [List.isEmpty_iff, h₂ne])]
      unfold schemaStr
      rw [schemaItems_perm cols₁ cols₂ hp hnd]
  · intro cols rows₁ rows₂
    rfl
  · intro hinj cols i n t t' hnd hi hnt hcontra
    have hilt : i < cols.length := lt_of_getElemQ cols i _ hi
    have hcolsne : cols ≠ [] := by
      intro hc
      rw [hc] at hilt
      simp at hilt
    have hsetne : cols.set i (n, t') ≠ [] := by
      intro hc
      have := congrArg List.length hc
      rw [List.length_set] at this
      rw [List.length_eq_zero.mp this] at hilt
      simp at hilt
    unfold computeFingerprint at hcontra
    rw [if_neg (by simp [List.isEmpty_iff, hsetne]),
      if_neg (by simp [List.isEmpty_iff, hcolsne])] at hcontra
    injection hcontra with hcontra
    exact schemaStr_ne_type_change cols i n t t' hnd hi hnt (hinj hcontra)
  · intro hinj cols i n t m hnd hi hm hmn hcf hcfm hcontra
    have hilt : i < cols.length := lt_of_getElemQ cols i _ hi
    have hcolsne : cols ≠ [] := by
      intro hc
      rw [hc] at hilt
      simp at hilt
    have hsetne : cols.set i (m, t) ≠ [] := by
      intro hc
      have := congrArg List.length hc
      rw [List.length_set] at this
      rw [List.length_eq_zero.mp this] at hilt
      simp at hilt
    unfold computeFingerprint at hcontra
    rw [if_neg (by simp [List.isEmpty_iff, hsetne]),
      if_neg (by simp [List.isEmpty_iff, hcolsne])] at hcontra
    injection hcontra with hcontra
    exact schemaStr_ne_name_change cols i n t m hnd hi hm hmn hcf hcfm (hinj hcontra)

/-- C6 witness: order/table-name invariance and both single-change clauses
at concrete schemas under the (injective) identity hash. -/
theorem c6_fingerprint_amended_witness :
    computeFingerprint (fun s : List Char => s) true
        [("b".data, "int64".data), ("a".data, "string".data)] none
      = computeFingerprint (fun s : List Char => s) true
        [("a".data, "string".data), ("b".data, "int64".data)] (some "tbl".data) ∧
    computeFingerprint (fun s : List Char => s) true
        ([("a".data, "int64".data)].set 0 ("a".data, "float64".data)) none
      ≠ computeFingerprint (fun s : List Char => s) true
        [("a".data, "int64".data)] none ∧
    computeFingerprint (fun s : List Char => s) true
        ([("a".data, "int64".data)].set 0 ("b".data, "int64".data)) none
      ≠ computeFingerprint (fun s : List Char => s) true
        [("a".data, "int64".data)] none :=
  ⟨(c6_fingerprint_amended (fun s : List Char => s)).1 _ _ _ _ (by decide) (by decide),
    (c6_fingerprint_amended (fun s : List Char => s)).2.2.1 (fun a b h => h)
      _ 0 "a".data "int64".data "float64".data (by decide) (by decide) (by decide),
    (c6_fingerprint_amended (fun s : List Char => s)).2.2.2 (fun a b h => h)
      _ 0 "a".data "int64".data "b".data (by decide) (by decide) (by decide)
      (by decide) (by decide) (by decide)⟩

/-! ## C3 — `build_plan` validation -/

/-- Membership via indexing. -/
theorem mem_iff_getElemQ {α : Type} : ∀ (l : List α) (a : α),
    a ∈ l ↔ ∃ i : Nat, l[i]? = some a := by
  intro l a
  induction l with
  | nil => simp
  | cons x t ih =>
    constructor
    · intro hm
      rcases List.mem_cons.mp hm with rfl | hm'
      · exact ⟨0, by simp⟩
      · obtain ⟨i, hi⟩ := ih.mp hm'
        exact ⟨i + 1, by simpa using hi⟩
    · rintro ⟨i, hi⟩
      cases i with
      | zero => simp at hi; simp [hi]
      | succ i => exact List.mem_cons_of_mem x (ih.mpr ⟨i, by simpa using hi⟩)

/-- Indexing an `enumFrom`. -/
theorem enumFrom_getElemQ {α : Type} : ∀ (l : List α) (n i : Nat),
    (List.enumFrom n l)[i]? = l[i]?.map (fun a => (n + i, a)) := by
  intro l
  induction l with
  | nil => intro n i; simp
  | cons x t ih =>
    intro n i
    cases i with
    | zero => simp
    | succ i =>
      simp only [List.enumFrom, List.getElem?_cons_succ]
      rw [ih (n + 1) i]
      cases t[i]? <;> simp
      omega

/-- Indexing an `enum`. -/
theorem enum_getElemQ {α : Type} (l : List α) (i : Nat) :
    l.enum[i]? = l[i]?.map (fun a => (i, a)) := by
  rw [List.enum, enumFrom_getElemQ]
  simp

/-- String concatenation on the underlying character lists. -/
theorem string_data_append (s t : String) : (s ++ t).data = s.data ++ t.data := by
  cases s
  cases t
  rfl

/-- Strings with equal character lists are equal. -/
theorem string_eq_of_data (s t : String) (h : s.data = t.data) : s = t := by
  cases s
  cases t
  exact congrArg String.mk (by simpa using h)

/-- Prepending a fixed string is injective. -/
theorem string_append_left_cancel (p a b : String) (h : p ++ a = p ++ b) : a = b := by
  have hd := congrArg String.data h
  rw [string_data_append, string_data_append] at hd
  exact string_eq_of_data a b (List.append_cancel_left hd)

/-- `stepIdOf planId` is injective in the operation id. -/
theorem stepIdOf_injective (planId : String) :
    Function.Injective (stepIdOf planId) := by
  intro a b hab
  unfold stepIdOf at hab
  exact string_append_left_cancel _ a b hab

/-- The edge target of the searched graph is a step id, and so is the
source. -/
theorem dfsEdge_mem (steps : List PlanStep) (x y : String)
    (h : dfsEdge steps x y) :
    x ∈ steps.map (·.step_id) := by
  unfold dfsEdge adjGet at h
  cases hf : (steps.reverse.find? (fun s => s.step_id == x)) with
  | none => rw [hf] at h; simp at h
  | some s =>
    have hmem : s ∈ steps.reverse := List.mem_of_find?_eq_some hf
    have hpred := List.find?_some hf
    simp only [beq_iff_eq] at hpred
    exact hpred ▸ List.mem_map.mpr ⟨s, List.mem_reverse.mp hmem, rfl⟩

/-- Under dependency closure, edge targets are step ids too. -/
theorem dfsEdge_target_mem (steps : List PlanStep) (hclosed : DepsClosed steps)
    (x y : String) (h : dfsEdge steps x y) :
    y ∈ steps.map (·.step_id) := by
  unfold dfsEdge adjGet at h
  cases hf : (steps.reverse.find? (fun s => s.step_id == x)) with
  | none => rw [hf] at h; simp at h
  | some s =>
    rw [hf] at h
    have hmem : s ∈ steps.reverse := List.mem_of_find?_eq_some hf
    exact hclosed s (List.mem_reverse.mp hmem) y h

/-- A node on a stack chain reaches the head of the stack. -/
theorem stackChain_reaches_head (steps : List PlanStep) :
    ∀ (rest : List String) (h a : String), StackChain steps (h :: rest) →
      a ∈ h :: rest → Relation.ReflTransGen (dfsEdge steps) a h := by
  intro rest
  induction rest with
  | nil =>
    intro h a _ hmem
    rcases List.mem_cons.mp hmem with rfl | hmem'
    · exact Relation.ReflTransGen.refl
    · simp at hmem'
  | cons h₂ rest ih =>
    intro h a hchain hmem
    have hchain' : StackChain steps (h₂ :: rest) := hchain.tail
    have hedge : dfsEdge steps h₂ h := List.chain'_cons.mp hchain |>.1
    rcases List.mem_cons.mp hmem with rfl | hmem'
    · exact Relation.ReflTransGen.refl
    · exact (ih h₂ a hchain' hmem').trans (Relation.ReflTransGen.single hedge)

/-- Visited nodes persist through a neighbor scan (for any monotone
visitor). -/
theorem dfsScan_subset
    (visit : String → List String → List String → Bool × List String)
    (hv : ∀ n v s, v ⊆ (visit n v s).2) :
    ∀ (nbs v s : List String), v ⊆ (dfsScan visit nbs v s).2 := by
  intro nbs
  induction nbs with
  | nil => intro v s; exact fun _ hx => hx
  | cons nb rest ih =>
    intro v s
    simp only [dfsScan]
    by_cases hvis : v.contains nb
    · rw [if_pos hvis]
      by_cases hst : s.contains nb
      · rw [if_pos hst]
        exact fun _ hx => hx
      · rw [if_neg hst]
        exact ih v s
    · rw [if_neg hvis]
      rcases hcall : visit nb v s with ⟨b, v'⟩
      have hmono : v ⊆ v' := by
        have h0 := hv nb v s
        rw [hcall] at h0
        exact h0
      cases b with
      | true =>
        dsimp only
        exact hmono
      | false =>
        dsimp only
        exact fun x hx => ih v' s (hmono hx)

/-- Visited nodes persist through a DFS visit. -/
theorem dfsVisit_subset (steps : List PlanStep) :
    ∀ (fuel : Nat) (node : String) (v s : List String),
      v ⊆ (dfsVisit steps fuel node v s).2 := by
  intro fuel
  induction fuel with
  | zero => intro node v s; exact fun _ hx => hx
  | succ f ih =>
    intro node v s
    simp only [dfsVisit]
    intro x hx
    exact dfsScan_subset _ (fun n v₀ s₀ => ih n v₀ s₀) (adjGet steps node)
      (node :: v) (node :: s) (List.mem_cons_of_mem node hx)

/-- Visited-list growth shrinks the unvisited count. -/
theorem unvisitedCount_anti (steps : List PlanStep) (v w : List String)
    (h : v ⊆ w) : unvisitedCount steps w ≤ unvisitedCount steps v := by
  unfold unvisitedCount
  apply Finset.card_le_card
  apply Finset.sdiff_subset_sdiff (Finset.Subset.refl _)
  intro a ha
  exact List.mem_toFinset.mpr (h (List.mem_toFinset.mp ha))

/-- Marking an unvisited step id strictly shrinks the unvisited count. -/
theorem unvisitedCount_cons (steps : List PlanStep) (node : String) (v : List String)
    (hmem : node ∈ steps.map (fun st => st.step_id)) (hnot : node ∉ v) :
    unvisitedCount steps (node :: v) < unvisitedCount steps v := by
  unfold unvisitedCount
  have hsub : (steps.map (fun st => st.step_id)).toFinset \ (node :: v).toFinset ⊆
      (steps.map (fun st => st.step_id)).toFinset \ v.toFinset := by
    apply Finset.sdiff_subset_sdiff (Finset.Subset.refl _)
    intro a ha
    exact List.mem_toFinset.mpr (List.mem_cons_of_mem node (List.mem_toFinset.mp ha))
  apply Finset.card_lt_card
  refine (Finset.ssubset_iff_of_subset hsub).mpr ⟨node, ?_, ?_⟩
  · exact Finset.mem_sdiff.mpr
      ⟨List.mem_toFinset.mpr hmem, fun hc => hnot (List.mem_toFinset.mp hc)⟩
  · intro hc
    exact (Finset.mem_sdiff.mp hc).2 (List.mem_toFinset.mpr (List.mem_cons_self node v))

/-- The black invariant weakens under a pushed stack entry. -/
theorem blackInv_stack_cons (steps : List PlanStep) (v s : List String) (x : String)
    (h : BlackInv steps v s) : BlackInv steps v (x :: s) := by
  intro y hy hys
  exact h y hy (fun hc => hys (List.mem_cons_of_mem x hc))

/-- Pushing a node onto both the visited set and the stack preserves the
black invariant. -/
theorem blackInv_visit_push (steps : List PlanStep) (v s : List String) (node : String)
    (h : BlackInv steps v (node :: s)) : BlackInv steps (node :: v) (node :: s) := by
  intro y hy hys
  rcases List.mem_cons.mp hy with rfl | hy'
  · exact absurd (List.mem_cons_self _ _) hys
  · exact h y hy' hys

/-- Soundness of the neighbor scan: a `true` result reveals a cycle, given a
sound visitor. -/
theorem dfsS_scan (steps : List PlanStep)
    (visit : String → List String → List String → Bool × List String)
    (hd : String) (tl : List String) (B : Nat)
    (hclosed : DepsClosed steps)
    (hchain : StackChain steps (hd :: tl))
    (Hsub : ∀ n v s, v ⊆ (visit n v s).2)
    (Hvisit : ∀ nb v₀, nb ∉ v₀ → nb ∈ steps.map (fun st => st.step_id) →
        StackChain steps (nb :: hd :: tl) → unvisitedCount steps v₀ ≤ B →
        (visit nb v₀ (hd :: tl)).1 = true →
        ∃ x, Relation.TransGen (dfsEdge steps) x x) :
    ∀ (nbs v : List String), (∀ nb ∈ nbs, dfsEdge steps hd nb) →
      unvisitedCount steps v ≤ B →
      (dfsScan visit nbs v (hd :: tl)).1 = true →
      ∃ x, Relation.TransGen (dfsEdge steps) x x := by
  intro nbs
  induction nbs with
  | nil => intro v _ _ hres; simp [dfsScan] at hres
  | cons nb rest ih =>
    intro v hedges hcount hres
    simp only [dfsScan] at hres
    by_cases hvis : v.contains nb = true
    · rw [if_pos hvis] at hres
      by_cases hst : (hd :: tl).contains nb = true
      · have hmem : nb ∈ hd :: tl := List.elem_iff.mp hst
        have hreach : Relation.ReflTransGen (dfsEdge steps) nb hd :=
          stackChain_reaches_head steps tl hd nb hchain hmem
        exact ⟨nb, Relation.TransGen.tail' hreach (hedges nb (List.mem_cons_self nb rest))⟩
      · rw [if_neg hst] at hres
        exact ih v (fun x hx => hedges x (List.mem_cons_of_mem nb hx)) hcount hres
    · rw [if_neg hvis] at hres
      rcases hcall : visit nb v (hd :: tl) with ⟨b, v'⟩
      rw [hcall] at hres
      cases b with
      | true =>
        have hnotm : nb ∉ v := fun hc => hvis (List.elem_iff.mpr hc)
        have hnbmem : nb ∈ steps.map (fun st => st.step_id) :=
          dfsEdge_target_mem steps hclosed hd nb (hedges nb (List.mem_cons_self nb rest))
        have hchain' : StackChain steps (nb :: hd :: tl) :=
          List.chain'_cons.mpr ⟨hedges nb (List.mem_cons_self nb rest), hchain⟩
        exact Hvisit nb v hnotm hnbmem hchain' hcount (by rw [hcall])
      | false =>
        dsimp only at hres
        have hsubv : v ⊆ v' := by
          have h0 := Hsub nb v (hd :: tl)
          rw [hcall] at h0
          exact h0
        exact ih v' (fun x hx => hedges x (List.mem_cons_of_mem nb hx))
          (le_trans (unvisitedCount_anti steps v v' hsubv) hcount) hres

/-- Soundness of the recursive DFS visit: with enough fuel, a `true` result
reveals a cycle of the searched graph. -/
theorem dfsS_visit (steps : List PlanStep) (hclosed : DepsClosed steps) :
    ∀ (fuel : Nat) (node : String) (v s : List String),
      node ∈ steps.map (fun st => st.step_id) → node ∉ v →
      StackChain steps (node :: s) →
      unvisitedCount steps v < fuel →
      (dfsVisit steps fuel node v s).1 = true →
      ∃ x, Relation.TransGen (dfsEdge steps) x x := by
  intro fuel
  induction fuel with
  | zero =>
    intro node v s _ _ _ hcount _
    exact absurd hcount (Nat.not_lt_zero _)
  | succ f ih =>
    intro node v s hmem hnot hchain hcount hres
    simp only [dfsVisit] at hres
    have hlt : unvisitedCount steps (node :: v) < unvisitedCount steps v :=
      unvisitedCount_cons steps node v hmem hnot
    refine dfsS_scan steps (dfsVisit steps f) node s (f - 1) hclosed hchain
      (fun n v₀ s₀ => dfsVisit_subset steps f n v₀ s₀) ?_ (adjGet steps node)
      (node :: v) (fun nb hnb => hnb) ?_ hres
    · intro nb v₀ h1 h2 h3 h4 h5
      exact ih nb v₀ (node :: s) h2 h1 h3 (by omega) h5
    · omega

/-- Completeness of the neighbor scan: a `false` result certifies every
scanned neighbor cycle-free and preserves the black invariant, given a
complete visitor. -/
theorem dfsC_scan (steps : List PlanStep)
    (visit : String → List String → List String → Bool × List String)
    (stack : List String)
    (Hvisit : ∀ nb v₀ v₀', stack ⊆ v₀ → BlackInv steps v₀ (nb :: stack) →
        visit nb v₀ stack = (false, v₀') →
        BlackInv steps v₀' stack ∧ nb ∈ v₀' ∧ v₀ ⊆ v₀') :
    ∀ (nbs v v' : List String), stack ⊆ v → BlackInv steps v stack →
      dfsScan visit nbs v stack = (false, v') →
      BlackInv steps v' stack ∧ v ⊆ v' ∧
        ∀ nb ∈ nbs, ¬ Relation.TransGen (dfsEdge steps) nb nb := by
  intro nbs
  induction nbs with
  | nil =>
    intro v v' hsub hbl hres
    simp only [dfsScan] at hres
    injection hres with h1 h2
    subst h2
    exact ⟨hbl, fun x hx => hx, fun nb hnb => absurd hnb (List.not_mem_nil nb)⟩
  | cons nb rest ih =>
    intro v v' hsub hbl hres
    simp only [dfsScan] at hres
    by_cases hvis : v.contains nb = true
    · rw [if_pos hvis] at hres
      have hnbv : nb ∈ v := List.elem_iff.mp hvis
      by_cases hst : stack.contains nb = true
      · rw [if_pos hst] at hres
        injection hres with h1 h2
        exact Bool.noConfusion h1
      · rw [if_neg hst] at hres
        have hnbst : nb ∉ stack := fun hc => hst (List.elem_iff.mpr hc)
        obtain ⟨hB, hvv, hrest⟩ := ih v v' hsub hbl hres
        refine ⟨hB, hvv, ?_⟩
        intro x hx
        rcases List.mem_cons.mp hx with rfl | hx'
        · exact hbl x hnbv hnbst
        · exact hrest x hx'
    · rw [if_neg hvis] at hres
      have hnbv : nb ∉ v := fun hc => hvis (List.elem_iff.mpr hc)
      have hnbst : nb ∉ stack := fun hc => hnbv (hsub hc)
      rcases hcall : visit nb v stack with ⟨b, v₀'⟩
      rw [hcall] at hres
      cases b with
      | true =>
        dsimp only at hres
        injection hres with h1 h2
        exact Bool.noConfusion h1
      | false =>
        dsimp only at hres
        obtain ⟨hB1, hnbm, hsub1⟩ :=
          Hvisit nb v v₀' hsub (blackInv_stack_cons steps v stack nb hbl) hcall
        obtain ⟨hB, hvv, hrest⟩ := ih v₀' v' (fun x hx => hsub1 (hsub hx)) hB1 hres
        refine ⟨hB, fun x hx => hvv (hsub1 hx), ?_⟩
        intro x hx
        rcases List.mem_cons.mp hx with rfl | hx'
        · exact hB1 x hnbm hnbst
        · exact hrest x hx'

/-- Completeness of the recursive DFS visit: a `false` result marks the node
visited and certifies it cycle-free via the black invariant. -/
theorem dfsC_visit (steps : List PlanStep) :
    ∀ (fuel : Nat) (node : String) (v s v' : List String),
      s ⊆ v → BlackInv steps v (node :: s) →
      dfsVisit steps fuel node v s = (false, v') →
      BlackInv steps v' s ∧ node ∈ v' ∧ v ⊆ v' := by
  intro fuel
  induction fuel with
  | zero =>
    intro node v s v' _ _ hres
    simp only [dfsVisit] at hres
    injection hres with h1 h2
    exact Bool.noConfusion h1
  | succ f ih =>
    intro node v s v' hsub hbl hres
    simp only [dfsVisit] at hres
    obtain ⟨hB, hvv, hnbs⟩ := dfsC_scan steps (dfsVisit steps f) (node :: s)
      (fun nb v₀ v₀' h1 h2 h3 => ih nb v₀ (node :: s) v₀' h1 h2 h3)
      (adjGet steps node) (node :: v) v'
      (List.cons_subset_cons node hsub)
      (blackInv_visit_push steps v s node hbl)
      hres
    have hnodefree : ¬ Relation.TransGen (dfsEdge steps) node node := by
      intro hcyc
      obtain ⟨nb, hedge, hrt⟩ := Relation.TransGen.head'_iff.mp hcyc
      exact hnbs nb hedge (Relation.TransGen.tail' hrt hedge)
    refine ⟨?_, hvv (List.mem_cons_self node v), fun x hx => hvv (List.mem_cons_of_mem node hx)⟩
    intro x hx hxs
    by_cases hxn : x = node
    · subst hxn
      exact hnodefree
    · exact hB x hx (fun hc => (List.mem_cons.mp hc).elim hxn hxs)

/-- Soundness of the top-level loop of `_has_cycle`. -/
theorem hasCycleLoop_sound (steps : List PlanStep) (hclosed : DepsClosed steps)
    (fuel : Nat) :
    ∀ (ns v : List String), (∀ n ∈ ns, n ∈ steps.map (fun st => st.step_id)) →
      unvisitedCount steps v < fuel →
      hasCycleLoop steps fuel ns v = true →
      ∃ x, Relation.TransGen (dfsEdge steps) x x := by
  intro ns
  induction ns with
  | nil => intro v _ _ hres; simp [hasCycleLoop] at hres
  | cons n ns ih =>
    intro v hns hcount hres
    simp only [hasCycleLoop] at hres
    by_cases hvis : v.contains n = true
    · rw [if_pos hvis] at hres
      exact ih v (fun x hx => hns x (List.mem_cons_of_mem n hx)) hcount hres
    · rw [if_neg hvis] at hres
      rcases hcall : dfsVisit steps fuel n v [] with ⟨b, v'⟩
      rw [hcall] at hres
      cases b with
      | true =>
        exact dfsS_visit steps hclosed fuel n v [] (hns n (List.mem_cons_self n ns))
          (fun hc => hvis (List.elem_iff.mpr hc)) (List.chain'_singleton n) hcount
          (by rw [hcall])
      | false =>
        dsimp only at hres
        have hsubv : v ⊆ v' := by
          have h0 := dfsVisit_subset steps fuel n v []
          rw [hcall] at h0
          exact h0
        exact ih v' (fun x hx => hns x (List.mem_cons_of_mem n hx))
          (lt_of_le_of_lt (unvisitedCount_anti steps v v' hsubv) hcount) hres

/-- Completeness of the top-level loop of `_has_cycle`. -/
theorem hasCycleLoop_complete (steps : List PlanStep) (fuel : Nat) :
    ∀ (ns v : List String), BlackInv steps v [] →
      hasCycleLoop steps fuel ns v = false →
      ∀ n ∈ ns, ¬ Relation.TransGen (dfsEdge steps) n n := by
  intro ns
  induction ns with
  | nil =>
    intro v _ _ n hn
    exact absurd hn (List.not_mem_nil n)
  | cons m ns ih =>
    intro v hbl hres
    simp only [hasCycleLoop] at hres
    by_cases hvis : v.contains m = true
    · rw [if_pos hvis] at hres
      intro n hn
      rcases List.mem_cons.mp hn with rfl | hn'
      · exact hbl n (List.elem_iff.mp hvis) (List.not_mem_nil n)
      · exact ih v hbl hres n hn'
    · rw [if_neg hvis] at hres
      rcases hcall : dfsVisit steps fuel m v [] with ⟨b, v'⟩
      rw [hcall] at hres
      cases b with
      | true =>
        dsimp only at hres
        exact Bool.noConfusion hres
      | false =>
        dsimp only at hres
        obtain ⟨hB, hmv, _⟩ := dfsC_visit steps fuel m v [] v'
          (List.nil_subset v) (blackInv_stack_cons steps v [] m hbl) hcall
        intro n hn
        rcases List.mem_cons.mp hn with rfl | hn'
        · exact hB n hmv (List.not_mem_nil n)
        · exact ih v' hB hres n hn'

/-- `_has_cycle` decides existence of a reachability cycle of its adjacency
graph whenever every dependency is a step id. -/
theorem hasCycle_iff_cycle (steps : List PlanStep) (hclosed : DepsClosed steps) :
    hasCycle steps = true ↔ ∃ x, Relation.TransGen (dfsEdge steps) x x := by
  constructor
  · intro hres
    have hcount : unvisitedCount steps [] < steps.length + 1 := by
      have h1 : unvisitedCount steps [] ≤
          (steps.map (fun st => st.step_id)).toFinset.card :=
        Finset.card_le_card (Finset.sdiff_subset)
      have h2 : (steps.map (fun st => st.step_id)).toFinset.card ≤
          (steps.map (fun st => st.step_id)).length :=
        List.toFinset_card_le _
      have h3 : (steps.map (fun st => st.step_id)).length = steps.length := by simp
      omega
    unfold hasCycle at hres
    exact hasCycleLoop_sound steps hclosed (steps.length + 1)
      (steps.map (fun st => st.step_id)) [] (fun n hn => hn) hcount hres
  · rintro ⟨x, hcyc⟩
    by_contra hfalse
    have hres : hasCycle steps = false := by
      cases hress : hasCycle steps
      · rfl
      · exact absurd hress hfalse
    unfold hasCycle at hres
    have hall := hasCycleLoop_complete steps (steps.length + 1)
      (steps.map (fun st => st.step_id)) []
      (fun y hy _ => absurd hy (List.not_mem_nil y)) hres
    obtain ⟨b, hedge, _⟩ := Relation.TransGen.head'_iff.mp hcyc
    exact hall x (dfsEdge_mem steps x b hedge) hcyc

/-- `all` over the ids decides absence from the id list. -/
theorem all_ne_iff_not_mem (ops : List Operation) (d : String) :
    ops.all (fun o => o.id != d) = true ↔ d ∉ ops.map (fun op => op.id) := by
  rw [List.all_eq_true]
  constructor
  · intro h hmem
    obtain ⟨o, ho, hoid⟩ := List.mem_map.mp hmem
    exact (bne_iff_ne.mp (h o ho)) hoid
  · intro h o ho
    rw [bne_iff_ne]
    intro heq
    exact h (List.mem_map.mpr ⟨o, ho, heq⟩)

/-- Pass 2 finds no unresolved reference exactly when the spec's
unknown-dependency condition fails. -/
theorem findUnknownDep_eq_none_iff (ops : List Operation) :
    findUnknownDep ops = none ↔ ¬ specUnknownDep ops := by
  unfold findUnknownDep specUnknownDep
  rw [List.findSome?_eq_none_iff]
  push_neg
  constructor
  · intro h op hop d hd
    have h1 := h op hop
    simp only [Option.map_eq_none', List.find?_eq_none] at h1
    by_contra hnot
    exact h1 d hd ((all_ne_iff_not_mem ops d).mpr hnot)
  · intro h op hop
    simp only [Option.map_eq_none', List.find?_eq_none]
    intro d hd hall
    exact absurd (h op hop d hd) ((all_ne_iff_not_mem ops d).mp hall)

/-- With duplicate-free operation ids every index is the last occurrence of
its id. -/
theorem isLastOcc_of_nodup (ops : List Operation)
    (hnodup : (ops.map (fun op => op.id)).Nodup) (i : Nat) (op : Operation)
    (hop : ops[i]? = some op) : isLastOcc ops i = true := by
  simp only [isLastOcc, hop]
  rw [List.all_eq_true]
  intro o ho
  rw [bne_iff_ne]
  intro heq
  have hsplit : ops = ops.take (i + 1) ++ ops.drop (i + 1) :=
    (List.take_append_drop (i + 1) ops).symm
  have hnd : ((ops.take (i + 1)).map (fun op => op.id) ++
      (ops.drop (i + 1)).map (fun op => op.id)).Nodup := by
    rw [← List.map_append, ← hsplit]
    exact hnodup
  have hdisj := List.disjoint_of_nodup_append hnd
  have hopmem : op ∈ ops.take (i + 1) := by
    apply mem_of_getElemQ (ops.take (i + 1)) i op
    rw [List.getElem?_take_of_lt (Nat.lt_succ_self i)]
    exact hop
  exact hdisj (List.mem_map.mpr ⟨op, hopmem, rfl⟩) (List.mem_map.mpr ⟨o, ho, heq⟩)

/-- With duplicate-free ids, `build_plan`'s two passes produce exactly one
fully resolved step per operation. -/
theorem buildSteps_of_nodup (planId : String) (constraints : List String)
    (ops : List Operation) (hnodup : (ops.map (fun op => op.id)).Nodup) :
    buildSteps planId constraints ops = ops.map (simpleStep planId constraints) := by
  rw [List.ext_getElem?_iff]
  intro i
  simp only [buildSteps, List.getElem?_map, enum_getElemQ]
  cases hop : ops[i]? with
  | none => rfl
  | some op =>
    have hlast := isLastOcc_of_nodup ops hnodup i op hop
    simp only [Option.map_some', simpleStep, hlast, if_true]

/-- When pass 2 resolves every reference, the built steps' dependencies are
all step ids. -/
theorem depsClosed_of_no_unknown (planId : String) (constraints : List String)
    (ops : List Operation) (hnone : ¬ specUnknownDep ops) :
    DepsClosed (ops.map (simpleStep planId constraints)) := by
  intro s hs d hd
  obtain ⟨op, hop, rfl⟩ := List.mem_map.mp hs
  simp only [simpleStep] at hd
  obtain ⟨d₀, hd₀, rfl⟩ := List.mem_map.mp hd
  have hmem : d₀ ∈ ops.map (fun o => o.id) := by
    by_contra hc
    exact hnone ⟨op, hop, d₀, hd₀, hc⟩
  obtain ⟨op', hop', hid⟩ := List.mem_map.mp hmem
  rw [List.map_map]
  exact List.mem_map.mpr ⟨op', hop', by simp [Function.comp, simpleStep, hid]⟩

/-- With duplicate-free operation ids the built step ids are duplicate-free. -/
theorem stepIds_nodup (planId : String) (constraints : List String)
    (ops : List Operation) (hnodup : (ops.map (fun op => op.id)).Nodup) :
    ((ops.map (simpleStep planId constraints)).map (fun s => s.step_id)).Nodup := by
  rw [List.map_map]
  have heq : ((fun s => s.step_id) ∘ simpleStep planId constraints) =
      (stepIdOf planId) ∘ (fun op => op.id) := rfl
  rw [heq, ← List.map_map]
  exact hnodup.map (stepIdOf_injective planId)

/-- With duplicate-free step ids, the adjacency lookup of a member step's id
is its dependency list. -/
theorem adjGet_of_nodup (steps : List PlanStep)
    (hnodup : (steps.map (fun s => s.step_id)).Nodup) (s : PlanStep) (hs : s ∈ steps) :
    adjGet steps s.step_id = s.dependencies := by
  unfold adjGet
  cases hf : steps.reverse.find? (fun t => t.step_id == s.step_id) with
  | none =>
    rw [List.find?_eq_none] at hf
    exact absurd (by simp : (s.step_id == s.step_id) = true)
      (hf s (List.mem_reverse.mpr hs))
  | some t =>
    have ht : t ∈ steps := List.mem_reverse.mp (List.mem_of_find?_eq_some hf)
    have hpred := List.find?_some hf
    rw [beq_iff_eq] at hpred
    have hts : t = s := List.inj_on_of_nodup_map hnodup ht hs hpred
    rw [hts]

/-- The searched graph of the built steps is the image of the declared
operation graph under `stepIdOf` (duplicate-free regime). -/
theorem dfsEdge_simple_iff (planId : String) (constraints : List String)
    (ops : List Operation) (hnodup : (ops.map (fun op => op.id)).Nodup)
    (x y : String) :
    dfsEdge (ops.map (simpleStep planId constraints)) x y ↔
      ∃ a b, x = stepIdOf planId a ∧ y = stepIdOf planId b ∧ specDepEdge ops a b := by
  constructor
  · intro h
    unfold dfsEdge adjGet at h
    cases hf : (ops.map (simpleStep planId constraints)).reverse.find?
        (fun t => t.step_id == x) with
    | none =>
      rw [hf] at h
      exact absurd h (List.not_mem_nil y)
    | some t =>
      rw [hf] at h
      have ht : t ∈ ops.map (simpleStep planId constraints) :=
        List.mem_reverse.mp (List.mem_of_find?_eq_some hf)
      have hpred := List.find?_some hf
      rw [beq_iff_eq] at hpred
      obtain ⟨op, hop, rfl⟩ := List.mem_map.mp ht
      simp only [simpleStep] at h hpred
      obtain ⟨d, hd, rfl⟩ := List.mem_map.mp h
      exact ⟨op.id, d, hpred.symm, rfl, op, hop, rfl, hd⟩
  · rintro ⟨a, b, hx, hy, hedge⟩
    unfold specDepEdge at hedge
    obtain ⟨op, hop, hid, hb⟩ := hedge
    subst hid
    rw [hx, hy]
    have hstep : simpleStep planId constraints op ∈ ops.map (simpleStep planId constraints) :=
      List.mem_map.mpr ⟨op, hop, rfl⟩
    have hadj := adjGet_of_nodup (ops.map (simpleStep planId constraints))
      (stepIds_nodup planId constraints ops hnodup)
      (simpleStep planId constraints op) hstep
    unfold dfsEdge
    have hsid : (simpleStep planId constraints op).step_id = stepIdOf planId op.id := rfl
    rw [← hsid, hadj]
    exact List.mem_map.mpr ⟨b, hb, rfl⟩

/-- The cycle condition of the spec's declared graph matches the cycle
condition of the searched graph of the built steps (duplicate-free
regime). -/
theorem specHasCycle_iff_dfs_cycle (planId : String) (constraints : List String)
    (ops : List Operation) (hnodup : (ops.map (fun op => op.id)).Nodup) :
    specHasCycle ops ↔
      ∃ x, Relation.TransGen (dfsEdge (ops.map (simpleStep planId constraints))) x x := by
  constructor
  · rintro ⟨x, hcyc⟩
    refine ⟨stepIdOf planId x, ?_⟩
    refine Relation.TransGen.lift (stepIdOf planId) ?_ hcyc
    intro a b hab
    exact (dfsEdge_simple_iff planId constraints ops hnodup _ _).mpr ⟨a, b, rfl, rfl, hab⟩
  · rintro ⟨x, hcyc⟩
    have key : ∀ w : String,
        Relation.TransGen (dfsEdge (ops.map (simpleStep planId constraints))) x w →
        ∃ a b, x = stepIdOf planId a ∧ w = stepIdOf planId b ∧
          Relation.TransGen (specDepEdge ops) a b := by
      intro w h
      induction h with
      | single hedge =>
        obtain ⟨a, b, hu, hw, he⟩ :=
          (dfsEdge_simple_iff planId constraints ops hnodup _ _).mp hedge
        exact ⟨a, b, hu, hw, Relation.TransGen.single he⟩
      | tail _ hedge ih =>
        obtain ⟨a, b, hu, hw, ht⟩ := ih
        obtain ⟨b', c, hw', hz, he⟩ :=
          (dfsEdge_simple_iff planId constraints ops hnodup _ _).mp hedge
        have hbb : b = b' := stepIdOf_injective planId (hw.symm.trans hw')
        subst hbb
        exact ⟨a, c, hu, hz, ht.tail he⟩
    obtain ⟨a, b, hu, hw, ht⟩ := key x hcyc
    have hab : a = b := stepIdOf_injective planId (hu.symm.trans hw)
    subst hab
    exact ⟨a, ht⟩

/-- `_validate_dag`'s dependency-existence scan passes on dependency-closed
steps, leaving only the cycle check. -/
theorem validateDag_of_closed (steps : List PlanStep) (hclosed : DepsClosed steps) :
    validateDag steps =
      (if hasCycle steps then
        Except.error "Plan contains cycle - DAG validation failed"
      else Except.ok ()) := by
  simp only [validateDag]
  have hnone : steps.findSome? (fun s =>
      (s.dependencies.find? (fun d => !(steps.map (fun st => st.step_id)).contains d)).map
        (fun d => (s.step_id, d))) = none := by
    rw [List.findSome?_eq_none_iff]
    intro s hs
    simp only [Option.map_eq_none', List.find?_eq_none]
    intro d hd
    obtain ⟨t, ht, htid⟩ := List.mem_map.mp (hclosed s hs d hd)
    simp
    exact ⟨t, ht, htid⟩
  rw [hnone]

/-- C3 is false as stated: the operation list `dupIdOps` declares the cycle
`a -> b -> a` among its operation ids, yet `build_plan` succeeds — the
`step_index` dict keeps only the last occurrence of the duplicated id `a`,
and pass 2's overwrite of that step's dependency list erases the `a -> b`
edge before the DAG validation runs. -/
theorem c3_counterexample :
    specHasCycle dupIdOps ∧
      (buildPlan "0123456789" "objective" dupIdOps ["report"] []).isOk = true := by
  constructor
  · have e1 : specDepEdge dupIdOps "a" "b" :=
      ⟨⟨"a", "transform one", ["b"]⟩, List.Mem.head _, rfl, List.Mem.head _⟩
    have e2 : specDepEdge dupIdOps "b" "a" :=
      ⟨⟨"b", "transform three", ["a"]⟩,
        List.Mem.tail _ (List.Mem.tail _ (List.Mem.head _)), rfl, List.Mem.head _⟩
    exact ⟨"a", Relation.TransGen.tail (Relation.TransGen.single e1) e2⟩
  · rfl

/-- C3 (amended): for every operation list whose operation ids are pairwise
distinct, `build_plan` raises a validation error if and only if some
operation's declared dependency id is unknown among the operation ids or
the declared dependency graph contains a cycle; when it succeeds, the
returned plan has one step per operation and `plan.total_cost` equals the
sum of the steps' `estimated_cost` values. -/
theorem c3_buildPlan_amended (planId objective : String) (ops : List Operation)
    (deliverables constraints : List String)
    (hnodup : (ops.map (fun op => op.id)).Nodup) :
    ((buildPlan planId objective ops deliverables constraints).isOk = false ↔
      specUnknownDep ops ∨ specHasCycle ops) ∧
    ∀ plan, buildPlan planId objective ops deliverables constraints = Except.ok plan →
      plan.steps.length = ops.length ∧
      plan.total_cost = (plan.steps.map (fun s => s.estimated_cost)).sum := by
  cases hfind : findUnknownDep ops with
  | some pr =>
    have hspec : specUnknownDep ops := by
      by_contra hc
      rw [← findUnknownDep_eq_none_iff] at hc
      rw [hfind] at hc
      exact Option.noConfusion hc
    rcases pr with ⟨opid, dep⟩
    simp only [buildPlan, hfind]
    exact ⟨iff_of_true rfl (Or.inl hspec), fun plan hplan => Except.noConfusion hplan⟩
  | none =>
    have hnospec : ¬ specUnknownDep ops := (findUnknownDep_eq_none_iff ops).mp hfind
    have hsteps : buildSteps planId constraints ops = ops.map (simpleStep planId constraints) :=
      buildSteps_of_nodup planId constraints ops hnodup
    have hclosed : DepsClosed (ops.map (simpleStep planId constraints)) :=
      depsClosed_of_no_unknown planId constraints ops hnospec
    simp only [buildPlan, hfind, hsteps, validateDag_of_closed _ hclosed]
    by_cases hcyc : hasCycle (ops.map (simpleStep planId constraints)) = true
    · rw [if_pos hcyc]
      have hspec : specHasCycle ops :=
        (specHasCycle_iff_dfs_cycle planId constraints ops hnodup).mpr
          ((hasCycle_iff_cycle _ hclosed).mp hcyc)
      exact ⟨iff_of_true rfl (Or.inr hspec), fun plan hplan => Except.noConfusion hplan⟩
    · rw [if_neg hcyc]
      have hnocyc : ¬ specHasCycle ops := fun hs =>
        hcyc ((hasCycle_iff_cycle _ hclosed).mpr
          ((specHasCycle_iff_dfs_cycle planId constraints ops hnodup).mp hs))
      constructor
      · refine iff_of_false ?_ ?_
        · intro hcontra
          exact Bool.noConfusion hcontra
        · rintro (h | h)
          · exact hnospec h
          · exact hnocyc h
      · intro plan hplan
        injection hplan with hplan'
        subst hplan'
        refine ⟨by simp, rfl⟩

/-- C3 witness: the amended statement instantiated at a concrete
duplicate-free operation list. -/
theorem c3_buildPlan_amended_witness :
    ((c3WitnessOps.map (fun op => op.id)).Nodup) ∧
    (((buildPlan "0123456789" "objective" c3WitnessOps ["report"] []).isOk = false ↔
        specUnknownDep c3WitnessOps ∨ specHasCycle c3WitnessOps) ∧
      ∀ plan, buildPlan "0123456789" "objective" c3WitnessOps ["report"] [] = Except.ok plan →
        plan.steps.length = c3WitnessOps.length ∧
        plan.total_cost = (plan.steps.map (fun s => s.estimated_cost)).sum) :=
  ⟨by decide,
    c3_buildPlan_amended "0123456789" "objective" c3WitnessOps ["report"] [] (by decide)⟩
